import Mathlib

/-!
Shallow embedding of the distributed role-assignment simulation in
`trigridnet_role_assignment.py` (the role-assignment core: gradient map
construction, gradient-directed message relay, per-node claim tables and
role registries, conflict yielding, and the convergence-driven round loop).

Numbers: python ints become `Int`/`Nat`; the real-valued preference matrix
(`pref_dist`, produced by `np.random.rand`) is modelled as a parameter
`pref : Nat → Nat → ℚ`; python timestamps (initialised to `-1`) are `Int`.
Python `list.remove` is modelled by `List.erase` (identical behaviour when
the element is present exactly once, which the registry invariant
guarantees; on absent elements python raises, which never happens on the
paths we model).  The two `sys.exit` error paths inside the round loop
(self-message, no available role) are modelled by `Option`: `none` is the
aborted program.
-/

namespace TrigridRole

/-- Pointwise update of a one-argument table. -/
def upd1 {α : Type} (f : Nat → α) (i : Nat) (v : α) : Nat → α :=
  fun a => if a = i then v else f a

/-- Pointwise update of a two-argument table. -/
def upd2 {α : Type} (f : Nat → Nat → α) (i j : Nat) (v : α) : Nat → Nat → α :=
  fun a b => if a = i ∧ b = j then v else f a b

/-- Reading an updated one-argument table at the updated index. -/
theorem upd1_same {α : Type} (f : Nat → α) (i : Nat) (v : α) : upd1 f i v i = v := by
  unfold upd1; rw [if_pos rfl]

/-- Reading an updated one-argument table elsewhere. -/
theorem upd1_ne {α : Type} (f : Nat → α) (i : Nat) (v : α) (a : Nat)
    (h : ¬ a = i) : upd1 f i v a = f a := by
  unfold upd1; rw [if_neg h]

/-- Reading an updated two-argument table at the updated index pair. -/
theorem upd2_same {α : Type} (f : Nat → Nat → α) (i j : Nat) (v : α) :
    upd2 f i j v i j = v := by
  unfold upd2; rw [if_pos ⟨rfl, rfl⟩]

/-- Reading an updated two-argument table elsewhere. -/
theorem upd2_ne {α : Type} (f : Nat → Nat → α) (i j : Nat) (v : α) (a b : Nat)
    (h : ¬ (a = i ∧ b = j)) : upd2 f i j v a b = f a b := by
  unfold upd2; rw [if_neg h]

/-- `np.argmax` over the first `n` cells of a row: index of the first
maximal value (candidate starts at index 0, replaced only on a strictly
larger value). -/
def argmaxFirst (f : Nat → ℚ) (n : Nat) : Nat :=
  (List.range n).foldl (fun b k => if f b < f k then k else b) 0

/-! ## Topology (lines 74-86 of the source) -/

/-- Adjacency predicate generated from triangle-grid coordinates
(lines 76-82): nodes `i ≠ j` are connected when
`|dx| + |dy| = 1` or `dx * dy = -1`. -/
def connFromCoords (coords : List (Int × Int)) (i j : Nat) : Bool :=
  match coords.get? i, coords.get? j with
  | some a, some b =>
    if i = j then false
    else
      let dx := a.1 - b.1
      let dy := a.2 - b.2
      (dx.natAbs + dy.natAbs == 1) || (dx * dy == -1)
  | _, _ => false

/-- `connection_lists[i]` (lines 84-86): ascending list of the true cells
of row `i` of the connection matrix. -/
def connList (n : Nat) (conn : Nat → Nat → Bool) (i : Nat) : List Nat :=
  (List.range n).filter (fun j => conn i j)

/-- Bounded reachability: `reachInB n conn s k v` holds when `v` is
reachable from `s` in at most `k` hops through nodes `< n`. -/
def reachInB (n : Nat) (conn : Nat → Nat → Bool) (s : Nat) : Nat → Nat → Bool
  | 0, v => v == s
  | k + 1, v =>
    reachInB n conn s k v ||
      (List.range n).any (fun u => reachInB n conn s k u && conn u v)

/-- The graph on nodes `0..n-1` is connected: every node is reachable from
every source within `n` hops. -/
def ConnectedB (n : Nat) (conn : Nat → Nat → Bool) : Prop :=
  ∀ s, s < n → ∀ v, v < n → reachInB n conn s n v = true

/-! ## Gradient map construction (lines 160-182) -/

/-- Inner double loop of one pool iteration for one source (lines 169-175):
expand the frontier of `source` at pool gradient `g`, assigning `g + 1` to
every yet-unassigned non-source neighbour of a frontier node and collecting
the newly assigned nodes (`targets_temp`). -/
def expandFrontier (cl : Nat → List Nat) (source g : Nat)
    (row : Nat → Nat) (frontier : List Nat) : (Nat → Nat) × List Nat :=
  frontier.foldl
    (fun acc target =>
      (cl target).foldl
        (fun acc2 tn =>
          if tn = source then acc2
          else if acc2.1 tn = 0 then
            (upd1 acc2.1 tn (g + 1), acc2.2 ++ [tn])
          else acc2)
        acc)
    (row, [])

/-- State of the gradient-construction loop: the gradient map under
construction, the pool of still-active sources with their frontiers
(`pool_conn`), and the current pool gradient. -/
structure PoolSt where
  grad : Nat → Nat → Nat
  pool : List (Nat × List Nat)
  g : Nat

/-- Body of one pool iteration for one active source `sf` (source id and
frontier): expand the frontier on the source's gradient row; keep the
source in the pool with the new frontier only when the expansion produced
new targets (lines 168-179). -/
def poolStep (cl : Nat → List Nat) (G : Nat)
    (acc : (Nat → Nat → Nat) × List (Nat × List Nat)) (sf : Nat × List Nat) :
    (Nat → Nat → Nat) × List (Nat × List Nat) :=
  let row' := expandFrontier cl sf.1 G (acc.1 sf.1) sf.2
  let grad' := fun a => if a = sf.1 then row'.1 else acc.1 a
  if row'.2 = [] then (grad', acc.2) else (grad', acc.2 ++ [(sf.1, row'.2)])

/-- One iteration of the `while` loop of lines 166-182: every active source
expands its frontier; sources whose expansion produced no new target are
dropped from the pool; the pool gradient is incremented. -/
def poolBody (cl : Nat → List Nat) (st : PoolSt) : PoolSt :=
  let res := st.pool.foldl (poolStep cl st.g) (st.grad, [])
  { grad := res.1, pool := res.2, g := st.g + 1 }

/-- The gradient loop, run until the pool empties (fuelled; the pool is
proved empty within `n` iterations). -/
def gradLoop (cl : Nat → List Nat) : Nat → PoolSt → PoolSt
  | 0, st => st
  | fuel + 1, st => if st.pool = [] then st else gradLoop cl fuel (poolBody cl st)

/-- Initial gradient state (lines 160-165): the gradient map is a copy of
the connection matrix, every source starts with its gradient-1 connections
as frontier, and the pool gradient is 1. -/
def gradInit (n : Nat) (conn : Nat → Nat → Bool) : PoolSt :=
  { grad := fun i j => if conn i j then 1 else 0,
    pool := (List.range n).map (fun i => (i, connList n conn i)),
    g := 1 }

/-- The precomputed gradient map: `gradients n conn s v` is the gradient
value of node `v` for message source `s`. -/
def gradients (n : Nat) (conn : Nat → Nat → Bool) : Nat → Nat → Nat :=
  (gradLoop (connList n conn) n (gradInit n conn)).grad

/-- `neighbors_send[source][j]` (lines 193-201): the neighbours of `j`
whose gradient relative to `j` for message source `source` is exactly 1. -/
def neighborsSend (n : Nat) (conn : Nat → Nat → Bool) (source j : Nat) : List Nat :=
  (connList n conn j).filter
    (fun nb => (gradients n conn source nb : Int) - gradients n conn source j == 1)

/-! ## Protocol state (lines 203-257) -/

/-- One cell of `local_role_assignment`: chosen role, probability
(preference strength), time stamp.  The unknown sentinel is
`⟨-1, 0, -1⟩`. -/
structure Entry where
  role : Int
  prob : ℚ
  ts : Int
deriving DecidableEq

/-- A relayed message (lines 223-227): source node, its chosen role, the
probability of the chosen role, time stamp. -/
structure Message where
  source : Nat
  role : Int
  prob : ℚ
  ts : Int
deriving DecidableEq

/-- The whole mutable state of the round loop:
`lra i j` = `local_role_assignment[i][j]`,
`lna i r` = `local_node_assignment[i][r]` (nodes that node `i` believes
claim role `r`), `rx` = `message_rx`, the transmit/change flags,
`conv` = `scheme_converged`, and `iter` = `iter_count`. -/
structure SysState where
  lra : Nat → Nat → Entry
  lna : Nat → Nat → List Nat
  rx : Nat → List Message
  tflag : Nat → Nat → Bool
  cflag : Nat → Bool
  conv : Nat → Bool
  iter : Int

/-- Initially chosen role of node `i` (line 205): argmax of its preference
row. -/
def initRole (n : Nat) (pref : Nat → Nat → ℚ) (i : Nat) : Nat :=
  argmaxFirst (pref i) n

/-- The message node `s` broadcasts before the loop (lines 231-233). -/
def initMsg (n : Nat) (pref : Nat → Nat → ℚ) (s : Nat) : Message :=
  ⟨s, (initRole n pref s : Int), pref s (initRole n pref s), 0⟩

/-- The pre-loop broadcast (lines 231-236): every source appends its
initial claim to the receive buffer of each of its neighbours. -/
def initRx (n : Nat) (cl : Nat → List Nat) (pref : Nat → Nat → ℚ) :
    Nat → List Message :=
  (List.range n).foldl
    (fun acc source =>
      (cl source).foldl
        (fun acc2 target => upd1 acc2 target (acc2 target ++ [initMsg n pref source]))
        acc)
    (fun _ => [])

/-- The state just before the round loop (lines 208-257): each node knows
only its own initial claim (time stamp 0), all other entries are the
unknown sentinel `⟨-1, 0, -1⟩`, each node's registry has itself in its
chosen role's bucket, the initial broadcast is in flight, all flags are
down and `iter_count = 0`. -/
def initState (n : Nat) (cl : Nat → List Nat) (pref : Nat → Nat → ℚ) : SysState :=
  { lra := fun i j =>
      if j = i then ⟨(initRole n pref i : Int), pref i (initRole n pref i), 0⟩
      else ⟨-1, 0, -1⟩,
    lna := fun i r => if r = initRole n pref i then [i] else [],
    rx := initRx n cl pref,
    tflag := fun _ _ => false,
    cflag := fun _ => false,
    conv := fun _ => false,
    iter := 0 }

/-! ## One round (lines 287-418, display code omitted) -/

/-- Processing of one received message by node `i` (lines 296-322).
`none` models the `sys.exit` on a message whose source is `i` itself
(lines 301-303).  A message whose time stamp is not newer than the stored
one is discarded (line 304).  A newer message moves its source between
registry buckets, overwrites the claim-table entry, raises the transmit
flag, and raises the change flag when the received role equals `i`'s own
current role with probability at least `i`'s own preference for it
(lines 317-322). -/
def ingestApply (pref : Nat → Nat → ℚ) (i : Nat) (st : SysState) (m : Message) :
    SysState :=
  let roleOld := (st.lra i m.source).role
  let lnaA :=
    if 0 ≤ roleOld then
      upd2 st.lna i roleOld.toNat ((st.lna i roleOld.toNat).erase m.source)
    else st.lna
  { st with
    lra := upd2 st.lra i m.source ⟨m.role, m.prob, m.ts⟩,
    lna := upd2 lnaA i m.role.toNat (lnaA i m.role.toNat ++ [m.source]),
    tflag := upd2 st.tflag i m.source true,
    cflag :=
      if m.role = (st.lra i i).role ∧ pref i (st.lra i i).role.toNat ≤ m.prob then
        upd1 st.cflag i true
      else st.cflag }

def ingestMsg (pref : Nat → Nat → ℚ) (i : Nat) (st : SysState) (m : Message) :
    Option SysState :=
  if m.source = i then none
  else if (st.lra i m.source).ts < m.ts then some (ingestApply pref i st m)
  else some st

/-- Node `i` ingests a list of messages in order. -/
def ingestList (pref : Nat → Nat → ℚ) (i : Nat) (msgs : List Message)
    (st : SysState) : Option SysState :=
  msgs.foldlM (fun s m => ingestMsg pref i s m) st

/-- The message-processing loop of lines 295-322: every node ingests its
buffered messages. -/
def ingestAll (n : Nat) (pref : Nat → Nat → ℚ) (buf : Nat → List Message)
    (st : SysState) : Option SysState :=
  (List.range n).foldlM (fun s i => ingestList pref i (buf i) s) st

/-- Yield and reselect for one marked node `i` (lines 325-347): clear the
change flag, mask out of the preference row the current role and every
role whose registry bucket is non-empty, take the argmax of the masked
row; `none` models the `sys.exit` when the best remaining value is
negative (no available role, lines 336-338); otherwise move `i` between
its own registry buckets, overwrite its own claim-table entry with the new
role, its own preference for it and the current iteration as time stamp,
and raise the transmit flag. -/
def maskedRow (pref : Nat → Nat → ℚ) (i : Nat) (st : SysState) : Nat → ℚ :=
  fun r =>
    if r = (st.lra i i).role.toNat then -1
    else if st.lna i r ≠ [] then -1
    else pref i r

def reselectApply (n : Nat) (pref : Nat → Nat → ℚ) (i : Nat) (iter : Int)
    (st : SysState) : SysState :=
  let roleOld := (st.lra i i).role
  let roleNew := argmaxFirst (maskedRow pref i st) n
  let lna1 := upd2 st.lna i roleOld.toNat ((st.lna i roleOld.toNat).erase i)
  { st with
    lra := upd2 st.lra i i ⟨(roleNew : Int), pref i roleNew, iter⟩,
    lna := upd2 lna1 i roleNew (lna1 i roleNew ++ [i]),
    tflag := upd2 st.tflag i i true,
    cflag := upd1 st.cflag i false }

def reselect (n : Nat) (pref : Nat → Nat → ℚ) (i : Nat) (iter : Int)
    (st : SysState) : Option SysState :=
  if maskedRow pref i st (argmaxFirst (maskedRow pref i st) n) < 0 then none
  else some (reselectApply n pref i iter st)

/-- The role-changing loop of lines 324-347: every node whose change flag
is up yields and reselects. -/
def yieldPhase (n : Nat) (pref : Nat → Nat → ℚ) (iter : Int) (st : SysState) :
    Option SysState :=
  (List.range n).foldlM
    (fun s i => if s.cflag i then reselect n pref i iter s else pure s) st

/-- The transmission loop of lines 349-359: for every raised transmit flag,
clear it, build a message from the transmitter's current table entry for
that source, and append it to the receive buffer of every node in
`neighbors_send[source][transmitter]`. -/
def transmitOne (nsend : Nat → Nat → List Nat) (tr : Nat) (s2 : SysState)
    (src : Nat) : SysState :=
  if s2.tflag tr src then
    { s2 with
      tflag := upd2 s2.tflag tr src false,
      rx :=
        (nsend src tr).foldl
          (fun r t =>
            upd1 r t (r t ++ [⟨src, (s2.lra tr src).role, (s2.lra tr src).prob,
              (s2.lra tr src).ts⟩]))
          s2.rx }
  else s2

def transmitPhase (n : Nat) (nsend : Nat → Nat → List Nat) (st : SysState) :
    SysState :=
  (List.range n).foldl
    (fun s tr => (List.range n).foldl (transmitOne nsend tr) s)
    st

/-- Node `i`'s local convergence condition (lines 364-368): every registry
bucket has exactly one member.  `convergeOne` / `convergePhase` are the
convergence-check loop of lines 361-370: a node that has not yet converged
becomes converged when `allOneB` holds; an already-converged node is not
re-examined. -/
def allOneB (n : Nat) (st : SysState) (i : Nat) : Bool :=
  (List.range n).all (fun j => (st.lna i j).length == 1)

def convergeOne (n : Nat) (s : SysState) (i : Nat) : SysState :=
  if s.conv i then s
  else if allOneB n s i then { s with conv := upd1 s.conv i true }
  else s

def convergePhase (n : Nat) (st : SysState) : SysState :=
  (List.range n).foldl (convergeOne n) st

/-- One full round of the `while` loop (lines 287-418, display omitted):
increment the iteration counter, move the receive buffers aside and empty
them, ingest, yield, transmit, update convergence.  `none` is the aborted
program. -/
def step (n : Nat) (pref : Nat → Nat → ℚ) (nsend : Nat → Nat → List Nat)
    (st : SysState) : Option SysState :=
  let buf := st.rx
  let st0 : SysState := { st with rx := fun _ => [], iter := st.iter + 1 }
  (ingestAll n pref buf st0).bind fun st1 =>
    (yieldPhase n pref st0.iter st1).map fun st2 =>
      convergePhase n (transmitPhase n nsend st2)

/-- `all_converged` (lines 413-418). -/
def allConv (n : Nat) (st : SysState) : Bool :=
  (List.range n).all (fun i => st.conv i)

/-- The state after `t` rounds (`none` once the program has aborted). -/
def run (n : Nat) (cl : Nat → List Nat) (pref : Nat → Nat → ℚ)
    (nsend : Nat → Nat → List Nat) : Nat → Option SysState
  | 0 => some (initState n cl pref)
  | t + 1 => (run n cl pref nsend t).bind (step n pref nsend)

/-- The whole pipeline for a connection matrix: neighbour lists and
forwarding tables derived from the precomputed gradient map. -/
def progRun (n : Nat) (conn : Nat → Nat → Bool) (pref : Nat → Nat → ℚ)
    (t : Nat) : Option SysState :=
  run n (connList n conn) pref (neighborsSend n conn) t

end TrigridRole

namespace TrigridRole

/-! ## Concrete instances

`exCoords` is a 3-node triangle-grid input whose network is the path
`1 - 0 - 2` (a star centred at node 0).  `exPref` and `sPref` are two
preference matrices with distinct values inside every row; `exPref` gives
nodes 0 and 1 identical rows (equal strengths across nodes), `sPref`
differs in node 2's row.  `dCoords` is a 2-node triangle-grid input whose
two nodes are not adjacent: a disconnected network. -/

def exCoords : List (Int × Int) := [(0, 0), (1, 0), (-1, 0)]

def exConn : Nat → Nat → Bool := connFromCoords exCoords

def exPref : Nat → Nat → ℚ :=
  fun i r => (([[1, 2, 3], [1, 2, 3], [2, 1, 3]] : List (List ℚ)).getD i []).getD r 0

def sPref : Nat → Nat → ℚ :=
  fun i r => (([[1, 2, 3], [1, 2, 3], [1, 3, 2]] : List (List ℚ)).getD i []).getD r 0

def dCoords : List (Int × Int) := [(0, 0), (2, 2)]

def dConn : Nat → Nat → Bool := connFromCoords dCoords

def dPref : Nat → Nat → ℚ :=
  fun i r => (([[1, 2], [2, 1]] : List (List ℚ)).getD i []).getD r 0

/-- `tCoords` is a 3-node triangle-grid input whose network is the full
triangle `0 - 1 - 2 - 0`: a connected network used to instantiate the
gradient-map theorems. -/
def tCoords : List (Int × Int) := [(0, 0), (1, 0), (0, 1)]

def tConn : Nat → Nat → Bool := connFromCoords tCoords

/-! ## Invariants of the gradient construction

`ActInv` describes a source's gradient row and frontier while the source
is still active in `pool_conn`: the source's own cell is 0, every assigned
cell holds a value between 1 and the current pool gradient, the frontier
is exactly the set of cells holding the current pool gradient, every
assigned value is a correct and minimal hop count, and every node within
`pool_gradient` hops has been assigned.  `TermRow` is the final-row
version after the source leaves the pool: values are correct minimal hop
counts and every reachable node (at any hop count) is assigned. -/
structure ActInv (n : Nat) (conn : Nat → Nat → Bool) (s g : Nat)
    (row : Nat → Nat) (fr : List Nat) : Prop where
  row_s : row s = 0
  bnd : ∀ v, row v ≠ 0 → v < n ∧ v ≠ s ∧ row v ≤ g
  fr_iff : ∀ v, v ∈ fr ↔ row v = g
  sound : ∀ v, row v ≠ 0 → reachInB n conn s (row v) v = true
  minim : ∀ v k, reachInB n conn s k v = true → row v ≤ k
  compl : ∀ v, v ≠ s → reachInB n conn s g v = true → row v ≠ 0

structure TermRow (n : Nat) (conn : Nat → Nat → Bool) (s : Nat)
    (row : Nat → Nat) : Prop where
  row_s : row s = 0
  bnd : ∀ v, row v ≠ 0 → v < n ∧ v ≠ s ∧ row v ≤ n
  sound : ∀ v, row v ≠ 0 → reachInB n conn s (row v) v = true
  minim : ∀ v k, reachInB n conn s k v = true → row v ≤ k
  compl : ∀ v k, v ≠ s → reachInB n conn s k v = true → row v ≠ 0

/-- Invariant of the `while` loop of lines 166-182: the active sources are
pairwise distinct nodes of the network with non-empty frontiers satisfying
`ActInv`, every level up to the pool gradient is inhabited in an active
source's row, and the row of every source already dropped from the pool is
final (`TermRow`). -/
structure PoolInv (n : Nat) (conn : Nat → Nat → Bool) (st : PoolSt) : Prop where
  gpos : 1 ≤ st.g
  nodup : (st.pool.map Prod.fst).Nodup
  keylt : ∀ sf, sf ∈ st.pool → sf.1 < n
  frne : ∀ sf, sf ∈ st.pool → sf.2 ≠ []
  act : ∀ sf, sf ∈ st.pool → ActInv n conn sf.1 st.g (st.grad sf.1) sf.2
  lev : ∀ sf, sf ∈ st.pool → ∀ gg, 1 ≤ gg → gg ≤ st.g →
    ∃ v, v < n ∧ v ≠ sf.1 ∧ st.grad sf.1 v = gg
  term : ∀ s, s < n → s ∉ st.pool.map Prod.fst → TermRow n conn s (st.grad s)

/-- C1.  The round scheduler reports global convergence (`all_converged`,
ending the run) after round 2 on the 3-node star with preference matrix
`[[1,2,3],[1,2,3],[2,1,3]]`, yet the nodes' current claims are `[2,0,0]`:
nodes 1 and 2 both claim role 0 and no node claims role 1 — not a
bijection.  (Nodes 0 and 1 carry equal strengths, so on discovering their
round-1 collision on role 1 both yield simultaneously; node 1 then takes
role 0 one round before node 2's round-1 claim of role 0 can reach it, and
every node's registry happens to look conflict-free at that instant.) -/
theorem exit_reports_convergence_without_bijection :
    ((progRun 3 exConn exPref 2).map fun st =>
        (allConv 3 st, (st.lra 0 0).role, (st.lra 1 1).role, (st.lra 2 2).role)) =
        some (true, 2, 0, 0) ∧
    ((progRun 3 exConn exPref 1).map fun st => allConv 3 st) = some false := by
  constructor <;> decide

/-- C5.  Ingesting a message from another node whose time stamp is not
newer than the stored one leaves the whole state unchanged (line 304: a
message takes effect only if its time stamp is strictly newer). -/
theorem stale_message_ingest_is_identity (pref : Nat → Nat → ℚ) (i : Nat)
    (st : SysState) (m : Message) (hs : m.source ≠ i)
    (hts : m.ts ≤ (st.lra i m.source).ts) :
    ingestMsg pref i st m = some st := by
  unfold ingestMsg
  rw [if_neg hs, if_neg (not_lt.mpr hts)]

/-- Witness for C5: replaying node 2's initial broadcast at node 0 after
one round of the 3-node example changes nothing. -/
theorem stale_message_ingest_is_identity_witness :
    (initMsg 3 exPref 2).source ≠ 0 ∧
      ∃ st, progRun 3 exConn exPref 1 = some st ∧
        (initMsg 3 exPref 2).ts ≤ (st.lra 0 (initMsg 3 exPref 2).source).ts ∧
        ingestMsg exPref 0 st (initMsg 3 exPref 2) = some st := by
  refine ⟨by decide, ?_⟩
  match hrun : progRun 3 exConn exPref 1 with
  | none =>
    have hs2 : (progRun 3 exConn exPref 1).isSome = true := by decide
    rw [hrun] at hs2
    exact absurd hs2 (by simp)
  | some st =>
    refine ⟨st, rfl, ?_, ?_⟩
    · have h2 : progRun 3 exConn exPref 1 = some st := hrun
      have : ((progRun 3 exConn exPref 1).map fun s =>
          decide ((initMsg 3 exPref 2).ts ≤ (s.lra 0 (initMsg 3 exPref 2).source).ts)) =
          some true := by decide
      rw [h2, Option.map_some'] at this
      exact of_decide_eq_true (Option.some.inj this)
    · apply stale_message_ingest_is_identity _ _ _ _ (by decide)
      have : ((progRun 3 exConn exPref 1).map fun s =>
          decide ((initMsg 3 exPref 2).ts ≤ (s.lra 0 (initMsg 3 exPref 2).source).ts)) =
          some true := by decide
      rw [hrun, Option.map_some'] at this
      exact of_decide_eq_true (Option.some.inj this)

end TrigridRole

namespace TrigridRole

/-! ## Phase bookkeeping lemmas -/

/-- A successful message ingest does not touch the receive buffers, the
convergence flags or the iteration counter. -/
theorem ingestMsg_keeps {pref : Nat → Nat → ℚ} {i : Nat} {st : SysState}
    {m : Message} {st' : SysState} (h : ingestMsg pref i st m = some st') :
    st'.conv = st.conv ∧ st'.rx = st.rx ∧ st'.iter = st.iter := by
  unfold ingestMsg at h
  split at h
  · simp at h
  · split at h
    · cases h; exact ⟨rfl, rfl, rfl⟩
    · cases h; exact ⟨rfl, rfl, rfl⟩

/-- `ingestMsg_keeps`, lifted to the whole message list of one node. -/
theorem ingestList_keeps {pref : Nat → Nat → ℚ} {i : Nat} {msgs : List Message}
    {st st' : SysState} (h : ingestList pref i msgs st = some st') :
    st'.conv = st.conv ∧ st'.rx = st.rx ∧ st'.iter = st.iter := by
  induction msgs generalizing st with
  | nil =>
    unfold ingestList at h
    rw [List.foldlM_nil] at h
    cases h
    exact ⟨rfl, rfl, rfl⟩
  | cons m rest ih =>
    unfold ingestList at h
    rw [List.foldlM_cons, Option.bind_eq_bind] at h
    obtain ⟨mid, h1, h2⟩ := Option.bind_eq_some'.mp h
    obtain ⟨a1, a2, a3⟩ := ingestMsg_keeps h1
    obtain ⟨b1, b2, b3⟩ := ih h2
    exact ⟨b1.trans a1, b2.trans a2, b3.trans a3⟩

/-- `ingestMsg_keeps`, lifted to the message-processing loop over any list
of nodes. -/
theorem ingestFold_keeps {pref : Nat → Nat → ℚ} {buf : Nat → List Message}
    {l : List Nat} {st st' : SysState}
    (h : l.foldlM (fun s i => ingestList pref i (buf i) s) st = some st') :
    st'.conv = st.conv ∧ st'.rx = st.rx ∧ st'.iter = st.iter := by
  induction l generalizing st with
  | nil =>
    rw [List.foldlM_nil] at h
    cases h
    exact ⟨rfl, rfl, rfl⟩
  | cons i rest ih =>
    rw [List.foldlM_cons, Option.bind_eq_bind] at h
    obtain ⟨mid, h1, h2⟩ := Option.bind_eq_some'.mp h
    obtain ⟨a1, a2, a3⟩ := ingestList_keeps h1
    obtain ⟨b1, b2, b3⟩ := ih h2
    exact ⟨b1.trans a1, b2.trans a2, b3.trans a3⟩

/-- A successful reselection does not touch the receive buffers, the
convergence flags or the iteration counter. -/
theorem reselect_keeps {n : Nat} {pref : Nat → Nat → ℚ} {i : Nat} {iter : Int}
    {st st' : SysState} (h : reselect n pref i iter st = some st') :
    st'.conv = st.conv ∧ st'.rx = st.rx ∧ st'.iter = st.iter := by
  unfold reselect at h
  split at h
  · simp at h
  · cases h; exact ⟨rfl, rfl, rfl⟩

/-- `reselect_keeps`, lifted to the role-changing loop over any list of
nodes. -/
theorem yieldFold_keeps {n : Nat} {pref : Nat → Nat → ℚ} {iter : Int}
    {l : List Nat} {st st' : SysState}
    (h : l.foldlM (fun s i => if s.cflag i then reselect n pref i iter s else pure s)
      st = some st') :
    st'.conv = st.conv ∧ st'.rx = st.rx ∧ st'.iter = st.iter := by
  induction l generalizing st with
  | nil =>
    rw [List.foldlM_nil] at h
    cases h
    exact ⟨rfl, rfl, rfl⟩
  | cons i rest ih =>
    rw [List.foldlM_cons, Option.bind_eq_bind] at h
    obtain ⟨mid, h1, h2⟩ := Option.bind_eq_some'.mp h
    obtain ⟨b1, b2, b3⟩ := ih h2
    by_cases hc : st.cflag i
    · rw [if_pos hc] at h1
      obtain ⟨a1, a2, a3⟩ := reselect_keeps h1
      exact ⟨b1.trans a1, b2.trans a2, b3.trans a3⟩
    · rw [if_neg hc] at h1
      cases h1
      exact ⟨b1, b2, b3⟩

/-- One transmission step does not touch the claim tables, the registries,
the convergence flags or the iteration counter. -/
theorem transmitOne_keeps (nsend : Nat → Nat → List Nat) (tr : Nat)
    (s2 : SysState) (src : Nat) :
    (transmitOne nsend tr s2 src).conv = s2.conv ∧
      (transmitOne nsend tr s2 src).lna = s2.lna ∧
      (transmitOne nsend tr s2 src).lra = s2.lra ∧
      (transmitOne nsend tr s2 src).iter = s2.iter := by
  unfold transmitOne
  split
  · exact ⟨rfl, rfl, rfl, rfl⟩
  · exact ⟨rfl, rfl, rfl, rfl⟩

/-- The transmission phase does not touch the claim tables, the
registries, the convergence flags or the iteration counter. -/
theorem transmitInnerFold_keeps (nsend : Nat → Nat → List Nat) (tr : Nat)
    (ls : List Nat) (s : SysState) :
    (ls.foldl (transmitOne nsend tr) s).conv = s.conv ∧
      (ls.foldl (transmitOne nsend tr) s).lna = s.lna ∧
      (ls.foldl (transmitOne nsend tr) s).lra = s.lra ∧
      (ls.foldl (transmitOne nsend tr) s).iter = s.iter := by
  induction ls generalizing s with
  | nil => exact ⟨rfl, rfl, rfl, rfl⟩
  | cons src rest2 ih2 =>
    rw [List.foldl_cons]
    obtain ⟨a1, a2, a3, a4⟩ := ih2 (transmitOne nsend tr s src)
    obtain ⟨b1, b2, b3, b4⟩ := transmitOne_keeps nsend tr s src
    exact ⟨a1.trans b1, a2.trans b2, a3.trans b3, a4.trans b4⟩

/-- The transmission phase does not touch the claim tables, the
registries, the convergence flags or the iteration counter. -/
theorem transmitPhase_keeps (n : Nat) (nsend : Nat → Nat → List Nat)
    (st : SysState) :
    (transmitPhase n nsend st).conv = st.conv ∧
      (transmitPhase n nsend st).lna = st.lna ∧
      (transmitPhase n nsend st).lra = st.lra ∧
      (transmitPhase n nsend st).iter = st.iter := by
  unfold transmitPhase
  have hgen : ∀ (lt : List Nat) (s : SysState),
      ((lt.foldl (fun s2 tr => (List.range n).foldl (transmitOne nsend tr) s2) s)).conv
          = s.conv ∧
        ((lt.foldl (fun s2 tr => (List.range n).foldl (transmitOne nsend tr) s2) s)).lna
          = s.lna ∧
        ((lt.foldl (fun s2 tr => (List.range n).foldl (transmitOne nsend tr) s2) s)).lra
          = s.lra ∧
        ((lt.foldl (fun s2 tr => (List.range n).foldl (transmitOne nsend tr) s2) s)).iter
          = s.iter := by
    intro lt
    induction lt with
    | nil => exact fun s => ⟨rfl, rfl, rfl, rfl⟩
    | cons tr rest ih =>
      intro s
      rw [List.foldl_cons]
      obtain ⟨a1, a2, a3, a4⟩ := ih ((List.range n).foldl (transmitOne nsend tr) s)
      obtain ⟨b1, b2, b3, b4⟩ := transmitInnerFold_keeps nsend tr (List.range n) s
      exact ⟨a1.trans b1, a2.trans b2, a3.trans b3, a4.trans b4⟩
  exact hgen (List.range n) st

/-- Pointwise effect of one convergence check: node `i`'s flag becomes
(old flag) or (all buckets have one member); other flags are unchanged. -/
theorem convergeOne_conv (n : Nat) (s : SysState) (i a : Nat) :
    (convergeOne n s i).conv a =
      if a = i then s.conv i || allOneB n s i else s.conv a := by
  unfold convergeOne
  by_cases hc : s.conv i
  · rw [if_pos hc]
    by_cases ha : a = i
    · subst ha; simp [hc]
    · rw [if_neg ha]
  · rw [if_neg hc]
    by_cases hall : allOneB n s i
    · rw [if_pos hall]
      by_cases ha : a = i
      · subst ha; simp [hc, hall, upd1]
      · simp [upd1, ha]
    · rw [if_neg hall]
      by_cases ha : a = i
      · subst ha; simp [hc, hall]
      · rw [if_neg ha]

/-- The convergence check does not touch anything but the convergence
flags. -/
theorem convergeOne_keeps (n : Nat) (s : SysState) (i : Nat) :
    (convergeOne n s i).lna = s.lna ∧ (convergeOne n s i).lra = s.lra ∧
      (convergeOne n s i).rx = s.rx ∧ (convergeOne n s i).iter = s.iter := by
  unfold convergeOne
  split
  · exact ⟨rfl, rfl, rfl, rfl⟩
  · split
    · exact ⟨rfl, rfl, rfl, rfl⟩
    · exact ⟨rfl, rfl, rfl, rfl⟩

/-- The convergence phase over a duplicate-free list of nodes: it leaves
every non-flag field unchanged, and for a node in the list the flag
becomes (old flag) or (all buckets have one member). -/
theorem convergeFold_char (n : Nat) (l : List Nat) (st : SysState)
    (hd : l.Nodup) :
    (l.foldl (convergeOne n) st).lna = st.lna ∧
      (l.foldl (convergeOne n) st).lra = st.lra ∧
      (l.foldl (convergeOne n) st).rx = st.rx ∧
      (l.foldl (convergeOne n) st).iter = st.iter ∧
      (∀ a, a ∈ l → (l.foldl (convergeOne n) st).conv a = (st.conv a || allOneB n st a)) ∧
      (∀ a, a ∉ l → (l.foldl (convergeOne n) st).conv a = st.conv a) := by
  induction l generalizing st with
  | nil => exact ⟨rfl, rfl, rfl, rfl, fun a ha => absurd ha (List.not_mem_nil a), fun a _ => rfl⟩
  | cons i rest ih =>
    rw [List.foldl_cons]
    obtain ⟨hnotmem, hnd⟩ := List.nodup_cons.mp hd
    obtain ⟨k1, k2, k3, k4⟩ := convergeOne_keeps n st i
    obtain ⟨a1, a2, a3, a4, a5, a6⟩ := ih (convergeOne n st i) hnd
    refine ⟨a1.trans k1, a2.trans k2, a3.trans k3, a4.trans k4, ?_, ?_⟩
    · intro a ha
      have hb : allOneB n (convergeOne n st i) a = allOneB n st a := by
        unfold allOneB; rw [k1]
      rcases List.mem_cons.mp ha with ha | ha
      · subst ha
        rw [a6 a hnotmem, convergeOne_conv, if_pos rfl]
      · have hai : ¬ a = i := fun hai => hnotmem (hai ▸ ha)
        rw [a5 a ha, hb, convergeOne_conv, if_neg hai]
    · intro a ha
      have hane : a ∉ rest := fun hr => ha (List.mem_cons_of_mem _ hr)
      have hai : ¬ a = i := fun hai => ha (hai ▸ List.mem_cons_self i rest)
      rw [a6 a hane, convergeOne_conv, if_neg hai]

end TrigridRole

namespace TrigridRole

/-- C2 (amended).  After a round, node `i`'s locally-converged status
holds iff it already held before the round or every role bucket of `i`'s
registry (as left by the round) has exactly one member: the status is
sticky — the test is run only for not-yet-converged nodes (line 363), so a
later update that breaks a bucket never clears it. -/
theorem converged_iff_previously_or_all_buckets_singleton
    {n : Nat} {pref : Nat → Nat → ℚ} {nsend : Nat → Nat → List Nat}
    {st st' : SysState} (h : step n pref nsend st = some st') {i : Nat}
    (hi : i < n) :
    st'.conv i = (st.conv i || allOneB n st' i) := by
  unfold step at h
  obtain ⟨st1, h1, h2⟩ := Option.bind_eq_some'.mp h
  obtain ⟨st2, h3, h4⟩ := Option.map_eq_some'.mp h2
  subst h4
  obtain ⟨t1, t2, _, _⟩ :=
    transmitPhase_keeps n nsend st2
  obtain ⟨c1, c2, _, _, c5, _⟩ :=
    convergeFold_char n (List.range n) (transmitPhase n nsend st2)
      (List.nodup_range n)
  have hconv : (convergePhase n (transmitPhase n nsend st2)).conv i =
      ((transmitPhase n nsend st2).conv i || allOneB n (transmitPhase n nsend st2) i) :=
    c5 i (List.mem_range.mpr hi)
  have hlna : (convergePhase n (transmitPhase n nsend st2)).lna =
      (transmitPhase n nsend st2).lna := c1
  have hAll : allOneB n (convergePhase n (transmitPhase n nsend st2)) i =
      allOneB n (transmitPhase n nsend st2) i := by
    unfold allOneB; rw [hlna]
  have hc2 : st2.conv = st1.conv := by
    unfold yieldPhase at h3
    exact (yieldFold_keeps h3).1
  have hc1 : st1.conv = st.conv := by
    unfold ingestAll at h1
    exact (ingestFold_keeps h1).1
  show (convergePhase n (transmitPhase n nsend st2)).conv i = _
  rw [hconv, hAll, t1, hc2, hc1]

/-- Witness for the amended C2: one round of the 3-node example with
preference matrix `[[1,2,3],[1,2,3],[1,3,2]]`, checked at node 0. -/
theorem converged_iff_previously_or_all_buckets_singleton_witness :
    ∃ st', step 3 sPref (neighborsSend 3 exConn)
        (initState 3 (connList 3 exConn) sPref) = some st' ∧
      st'.conv 0 =
        ((initState 3 (connList 3 exConn) sPref).conv 0 || allOneB 3 st' 0) := by
  match hrun : step 3 sPref (neighborsSend 3 exConn)
      (initState 3 (connList 3 exConn) sPref) with
  | none =>
    have hs2 : (step 3 sPref (neighborsSend 3 exConn)
        (initState 3 (connList 3 exConn) sPref)).isSome = true := by decide
    rw [hrun] at hs2
    exact absurd hs2 (by simp)
  | some st' =>
    exact ⟨st', rfl,
      converged_iff_previously_or_all_buckets_singleton hrun (by decide)⟩

/-- Counterexample to C2 as stated: on the 3-node star with preference
matrix `[[1,2,3],[1,2,3],[1,3,2]]`, after round 2 node 0's converged flag
is still true (set in round 1 and sticky) although its registry bucket for
role 2 now has 0 members and the bucket for role 1 has 2 — so converged
status does not hold iff every bucket has exactly one member, and a
disruptive update does not clear it. -/
theorem sticky_convergence_flag_counterexample :
    ((progRun 3 exConn sPref 2).map fun st =>
        (st.conv 0, (st.lna 0 2).length, (st.lna 0 1).length)) =
      some (true, 0, 2) := by
  decide

end TrigridRole

namespace TrigridRole

/-! ## The argmax fold -/

/-- The fold underlying `argmaxFirst`: the result is the start candidate or
a list element, and its value dominates the start candidate and every list
element. -/
theorem foldlMax_spec (f : Nat → ℚ) (l : List Nat) (b : Nat) :
    (l.foldl (fun b2 k => if f b2 < f k then k else b2) b = b ∨
        l.foldl (fun b2 k => if f b2 < f k then k else b2) b ∈ l) ∧
      f b ≤ f (l.foldl (fun b2 k => if f b2 < f k then k else b2) b) ∧
      ∀ k, k ∈ l → f k ≤ f (l.foldl (fun b2 k2 => if f b2 < f k2 then k2 else b2) b) := by
  induction l generalizing b with
  | nil =>
    exact ⟨Or.inl rfl, le_refl _, fun k hk => absurd hk (List.not_mem_nil k)⟩
  | cons a rest ih =>
    rw [List.foldl_cons]
    obtain ⟨m1, m2, m3⟩ := ih (if f b < f a then a else b)
    have hba : f b ≤ f (if f b < f a then a else b) := by
      split
    -- note: the two branches
      · exact le_of_lt (by assumption)
      · exact le_refl _
    have hka : f a ≤ f (if f b < f a then a else b) := by
      split
      · exact le_refl _
      · exact le_of_not_lt (by assumption)
    refine ⟨?_, hba.trans m2, ?_⟩
    · rcases m1 with m1 | m1
      · rw [m1]
        split
        · exact Or.inr (List.mem_cons_self _ _)
        · exact Or.inl rfl
      · exact Or.inr (List.mem_cons_of_mem _ m1)
    · intro k hk
      rcases List.mem_cons.mp hk with hk | hk
      · subst hk; exact hka.trans m2
      · exact m3 k hk

/-- `argmaxFirst` returns an index below `n` when `n > 0`. -/
theorem argmaxFirst_lt (f : Nat → ℚ) (n : Nat) (hn : 0 < n) :
    argmaxFirst f n < n := by
  unfold argmaxFirst
  rcases (foldlMax_spec f (List.range n) 0).1 with h | h
  · rw [h]; exact hn
  · exact List.mem_range.mp h

/-- The value at `argmaxFirst` dominates every cell of the row. -/
theorem argmaxFirst_le (f : Nat → ℚ) (n : Nat) (k : Nat) (hk : k < n) :
    f k ≤ f (argmaxFirst f n) := by
  unfold argmaxFirst
  exact (foldlMax_spec f (List.range n) 0).2.2 k (List.mem_range.mpr hk)

/-- C7.  Yield-and-reselect: call a role `r` a candidate when `r < n`, `r`
is not the just-vacated role (node `i`'s current role) and `r`'s bucket in
`i`'s registry is empty.  Provided preference scores are nonnegative (the
program draws them from `[0,1)`), reselection fails fatally iff no
candidate exists, and on success it picks the candidate with the highest
preference score (the first such, per `np.argmax`), records it in `i`'s
own claim-table entry together with `i`'s own preference score and the
current round as time stamp, and raises `i`'s transmit flag for itself. -/
theorem reselect_picks_best_free_role_and_fails_iff_none
    {n : Nat} {pref : Nat → Nat → ℚ} {i : Nat} {iter : Int} {st : SysState}
    (hn : 0 < n) (hpos : ∀ r, r < n → 0 ≤ pref i r) :
    (reselect n pref i iter st = none ↔
      ¬ ∃ r, r < n ∧ r ≠ (st.lra i i).role.toNat ∧ st.lna i r = []) ∧
    ∀ st', reselect n pref i iter st = some st' →
      (argmaxFirst (maskedRow pref i st) n < n ∧
        argmaxFirst (maskedRow pref i st) n ≠ (st.lra i i).role.toNat ∧
        st.lna i (argmaxFirst (maskedRow pref i st) n) = []) ∧
      (∀ r, r < n → r ≠ (st.lra i i).role.toNat → st.lna i r = [] →
        pref i r ≤ pref i (argmaxFirst (maskedRow pref i st) n)) ∧
      st'.lra i i = ⟨(argmaxFirst (maskedRow pref i st) n : Int),
        pref i (argmaxFirst (maskedRow pref i st) n), iter⟩ ∧
      st'.tflag i i = true := by
  have hmask : ∀ r, r ≠ (st.lra i i).role.toNat → st.lna i r = [] →
      maskedRow pref i st r = pref i r := by
    intro r h1 h2
    unfold maskedRow
    rw [if_neg h1, if_neg (by rw [h2]; exact fun hc => hc rfl)]
  have hmaskneg : ∀ r, r = (st.lra i i).role.toNat ∨ st.lna i r ≠ [] →
      maskedRow pref i st r = -1 := by
    intro r hr
    unfold maskedRow
    rcases hr with hr | hr
    · rw [if_pos hr]
    · by_cases h1 : r = (st.lra i i).role.toNat
      · rw [if_pos h1]
      · rw [if_neg h1, if_pos hr]
  have key : (∃ r, r < n ∧ r ≠ (st.lra i i).role.toNat ∧ st.lna i r = []) →
      ¬ maskedRow pref i st (argmaxFirst (maskedRow pref i st) n) < 0 := by
    rintro ⟨r, hr1, hr2, hr3⟩ hlt
    have h1 : maskedRow pref i st r ≤
        maskedRow pref i st (argmaxFirst (maskedRow pref i st) n) :=
      argmaxFirst_le _ n r hr1
    rw [hmask r hr2 hr3] at h1
    exact absurd (lt_of_le_of_lt (le_trans (hpos r hr1) h1) hlt) (lt_irrefl 0)
  have key2 : ¬ (∃ r, r < n ∧ r ≠ (st.lra i i).role.toNat ∧ st.lna i r = []) →
      maskedRow pref i st (argmaxFirst (maskedRow pref i st) n) < 0 := by
    intro hno
    have hN := argmaxFirst_lt (maskedRow pref i st) n hn
    set rN := argmaxFirst (maskedRow pref i st) n with hrN
    have : maskedRow pref i st rN = -1 := by
      apply hmaskneg
      by_cases h1 : rN = (st.lra i i).role.toNat
      · exact Or.inl h1
      · by_cases h2 : st.lna i rN = []
        · exact absurd ⟨rN, hN, h1, h2⟩ hno
        · exact Or.inr h2
    rw [this]
    norm_num
  constructor
  · constructor
    · intro hnone hex
      unfold reselect at hnone
      split at hnone
      · exact key hex (by assumption)
      · exact absurd hnone (by simp)
    · intro hno
      unfold reselect
      rw [if_pos (key2 hno)]
  · intro st' hsome
    unfold reselect at hsome
    split at hsome
    · exact absurd hsome (by simp)
    · have hnneg : ¬ maskedRow pref i st (argmaxFirst (maskedRow pref i st) n) < 0 := by
        assumption
      have hN := argmaxFirst_lt (maskedRow pref i st) n hn
      have hcand : argmaxFirst (maskedRow pref i st) n ≠ (st.lra i i).role.toNat ∧
          st.lna i (argmaxFirst (maskedRow pref i st) n) = [] := by
        by_contra hc
        push_neg at hc
        apply hnneg
        by_cases h1 : argmaxFirst (maskedRow pref i st) n = (st.lra i i).role.toNat
        · rw [hmaskneg _ (Or.inl h1)]; norm_num
        · rw [hmaskneg _ (Or.inr (hc h1))]; norm_num
      cases hsome
      refine ⟨⟨hN, hcand.1, hcand.2⟩, ?_, ?_, ?_⟩
      · intro r hr1 hr2 hr3
        have h1 : maskedRow pref i st r ≤
            maskedRow pref i st (argmaxFirst (maskedRow pref i st) n) :=
          argmaxFirst_le _ n r hr1
        rw [hmask r hr2 hr3, hmask _ hcand.1 hcand.2] at h1
        exact h1
      · have hfld : (reselectApply n pref i iter st).lra =
            upd2 st.lra i i ⟨(argmaxFirst (maskedRow pref i st) n : Int),
              pref i (argmaxFirst (maskedRow pref i st) n), iter⟩ := rfl
        rw [hfld, upd2_same]
      · have hfld : (reselectApply n pref i iter st).tflag =
            upd2 st.tflag i i true := rfl
        rw [hfld, upd2_same]

/-- Witness for C7: node 0 of the 3-node example (current role 2, buckets
for roles 0 and 1 empty) reselects role 1, its best free role, with its
own score 2 and the given round 5 as time stamp. -/
theorem reselect_picks_best_free_role_witness :
    ∃ st', reselect 3 exPref 0 5 (initState 3 (connList 3 exConn) exPref) = some st' ∧
      st'.lra 0 0 = ⟨1, 2, 5⟩ ∧ st'.tflag 0 0 = true := by
  have hspec := @reselect_picks_best_free_role_and_fails_iff_none
    3 exPref 0 5 (initState 3 (connList 3 exConn) exPref)
    (by decide) (by decide)
  match hrun : reselect 3 exPref 0 5 (initState 3 (connList 3 exConn) exPref) with
  | none =>
    have : ¬ ∃ r, r < 3 ∧
        r ≠ ((initState 3 (connList 3 exConn) exPref).lra 0 0).role.toNat ∧
        (initState 3 (connList 3 exConn) exPref).lna 0 r = [] := hspec.1.mp hrun
    exact absurd ⟨0, by decide, by decide, by decide⟩ this
  | some st' =>
    obtain ⟨_, _, h3, h4⟩ := hspec.2 st' hrun
    refine ⟨st', rfl, ?_, h4⟩
    rw [h3]
    decide

end TrigridRole

namespace TrigridRole

/-! ## The initial state -/

/-- Inner loop of the pre-loop broadcast: appending one fixed message to
the buffer of every target in a list puts one copy per occurrence of the
target at the end of its buffer. -/
theorem rxInnerFold_eq (msg : Message) (lt : List Nat) (acc : Nat → List Message)
    (t : Nat) :
    (lt.foldl (fun acc2 target => upd1 acc2 target (acc2 target ++ [msg])) acc) t =
      acc t ++ List.replicate (lt.count t) msg := by
  induction lt generalizing acc with
  | nil => simp
  | cons a rest ih =>
    rw [List.foldl_cons, ih]
    by_cases hta : t = a
    · subst hta
      rw [upd1_same, List.count_cons_self, List.replicate_succ]
      rw [List.append_assoc, List.singleton_append]
    · rw [upd1_ne _ _ _ _ hta, List.count_cons_of_ne hta]

/-- Outer loop of the pre-loop broadcast: node `t`'s buffer is the ordered
concatenation, over the sources, of the copies addressed to `t`. -/
theorem rxOuterFold_eq (n : Nat) (cl : Nat → List Nat) (pref : Nat → Nat → ℚ)
    (l : List Nat) (acc : Nat → List Message) (t : Nat) :
    (l.foldl
        (fun acc2 source =>
          (cl source).foldl
            (fun acc3 target => upd1 acc3 target (acc3 target ++ [initMsg n pref source]))
            acc2)
        acc) t =
      acc t ++
        (l.map (fun s => List.replicate ((cl s).count t) (initMsg n pref s))).flatten := by
  induction l generalizing acc with
  | nil => simp
  | cons s rest ih =>
    rw [List.foldl_cons, ih, List.map_cons, List.flatten_cons, rxInnerFold_eq]
    rw [List.append_assoc]

/-- C10.  At initialisation every node claims the argmax of its own
preference row, stored in its own claim-table entry with that score and
time stamp 0 (lines 205, 215-218); every other entry is the unknown
sentinel `⟨-1, 0, -1⟩` (line 208); and before the first round each node's
buffer holds, source by source, exactly one copy of the initial claim of
each node it is a direct neighbour of (lines 231-236). -/
theorem initial_state_spec {n : Nat} (cl : Nat → List Nat) (pref : Nat → Nat → ℚ)
    (hnd : ∀ s, (cl s).Nodup) :
    (∀ i, (initState n cl pref).lra i i =
        ⟨(initRole n pref i : Int), pref i (initRole n pref i), 0⟩) ∧
      (∀ i r, r < n → pref i r ≤ pref i (initRole n pref i)) ∧
      (∀ i j, j ≠ i → (initState n cl pref).lra i j = ⟨-1, 0, -1⟩) ∧
      (∀ t, (initState n cl pref).rx t =
        ((List.range n).map
          (fun s => if t ∈ cl s then [initMsg n pref s] else [])).flatten) := by
  refine ⟨?_, ?_, ?_, ?_⟩
  · intro i
    show (if i = i then _ else _) = _
    rw [if_pos rfl]
  · intro i r hr
    exact argmaxFirst_le (pref i) n r hr
  · intro i j hj
    show (if j = i then _ else _) = _
    rw [if_neg hj]
  · intro t
    show initRx n cl pref t = _
    unfold initRx
    rw [rxOuterFold_eq]
    rw [List.nil_append]
    congr 1
    apply List.map_congr_left
    intro s _
    by_cases hts : t ∈ cl s
    · rw [if_pos hts, List.count_eq_one_of_mem (hnd s) hts, List.replicate_one]
    · rw [if_neg hts, List.count_eq_zero.mpr hts, List.replicate_zero]

/-- Witness for C10 on the 3-node example: node 0 initially claims role 2
(the argmax of `[1,2,3]`) with score 3 and time stamp 0, knows nothing of
node 1, and node 1's initial buffer is exactly node 0's initial claim
(its only neighbour). -/
theorem initial_state_spec_witness :
    (initState 3 (connList 3 exConn) exPref).lra 0 0 = ⟨2, 3, 0⟩ ∧
      exPref 0 1 ≤ exPref 0 (initRole 3 exPref 0) ∧
      (initState 3 (connList 3 exConn) exPref).lra 0 1 = ⟨-1, 0, -1⟩ ∧
      (initState 3 (connList 3 exConn) exPref).rx 1 = [initMsg 3 exPref 0] := by
  obtain ⟨h1, h2, h3, h4⟩ := initial_state_spec (n := 3) (connList 3 exConn) exPref
    (fun s => (List.nodup_range 3).filter _)
  refine ⟨?_, h2 0 1 (by decide), h3 0 1 (by decide), ?_⟩
  · rw [h1 0]; decide
  · rw [h4 1]; decide

end TrigridRole

namespace TrigridRole

/-! ## Consistency of claim table and role registry (C9) -/

/-- The consistency invariant of C9: node `j` sits in node `i`'s registry
bucket for role `r` iff `i`'s claim-table entry for `j` records role `r`,
and entries still in the unknown state (`role = -1 < 0`) sit in no bucket.
It is strengthened, as the induction requires, with: buckets are
duplicate-free, every raised transmit flag points at an initialised
(nonnegative-role) entry, and every buffered message carries a
nonnegative role. -/
def Consistent (n : Nat) (st : SysState) : Prop :=
  (∀ i, i < n →
    (∀ r, (st.lna i r).Nodup) ∧
    (∀ j,
      ((st.lra i j).role < 0 → ∀ r, j ∉ st.lna i r) ∧
      (0 ≤ (st.lra i j).role →
        ∀ r, (j ∈ st.lna i r ↔ r = (st.lra i j).role.toNat)))) ∧
  (∀ a b, st.tflag a b = true → 0 ≤ (st.lra a b).role) ∧
  (∀ t m, m ∈ st.rx t → 0 ≤ m.role)

/-- Applying one fresh message (nonnegative role) at a node below `n`
preserves the consistency invariant. -/
theorem ingestApply_consistent {n : Nat} {pref : Nat → Nat → ℚ} {i : Nat}
    {st : SysState} {m : Message} (hc : Consistent n st) (hi : i < n)
    (hm : 0 ≤ m.role) :
    Consistent n (ingestApply pref i st m) := by
  obtain ⟨hbuck, htf, hrx⟩ := hc
  have hndi := (hbuck i hi).1
  have hentry := (hbuck i hi).2
  have hlra : (ingestApply pref i st m).lra =
      upd2 st.lra i m.source ⟨m.role, m.prob, m.ts⟩ := rfl
  have htfl : (ingestApply pref i st m).tflag = upd2 st.tflag i m.source true := rfl
  have hrx2 : (ingestApply pref i st m).rx = st.rx := rfl
  set lnaA := (if 0 ≤ (st.lra i m.source).role then
      upd2 st.lna i (st.lra i m.source).role.toNat
        ((st.lna i (st.lra i m.source).role.toNat).erase m.source)
    else st.lna) with hlnaA
  have hlna : (ingestApply pref i st m).lna =
      upd2 lnaA i m.role.toNat (lnaA i m.role.toNat ++ [m.source]) := rfl
  have hArow : ∀ a r, a ≠ i → lnaA a r = st.lna a r := by
    intro a r ha
    rw [hlnaA]
    split
    · exact upd2_ne _ _ _ _ _ _ (fun hab => ha hab.1)
    · rfl
  have hAi : ∀ r, lnaA i r =
      if 0 ≤ (st.lra i m.source).role ∧ r = (st.lra i m.source).role.toNat then
        (st.lna i (st.lra i m.source).role.toNat).erase m.source
      else st.lna i r := by
    intro r
    rw [hlnaA]
    by_cases hpos : 0 ≤ (st.lra i m.source).role
    · rw [if_pos hpos]
      by_cases hr : r = (st.lra i m.source).role.toNat
      · subst hr
        rw [upd2_same, if_pos ⟨hpos, rfl⟩]
      · rw [upd2_ne _ _ _ _ _ _ (fun hab => hr hab.2), if_neg (fun hab => hr hab.2)]
    · rw [if_neg hpos, if_neg (fun hab => hpos hab.1)]
  have hAnd : ∀ r, (lnaA i r).Nodup := by
    intro r
    rw [hAi]
    split
    · exact (hndi _).erase _
    · exact hndi r
  have hAmemT : ∀ j r, j ≠ m.source → (j ∈ lnaA i r ↔ j ∈ st.lna i r) := by
    intro j r hj
    rw [hAi]
    split
    · rename_i hcond
      rw [List.Nodup.mem_erase_iff (hndi _)]
      rw [hcond.2]
      exact ⟨fun h => h.2, fun h => ⟨hj, h⟩⟩
    · exact Iff.rfl
  have hASrcNot : ∀ r, m.source ∉ lnaA i r := by
    intro r
    rw [hAi]
    by_cases hpos : 0 ≤ (st.lra i m.source).role
    · by_cases hr : r = (st.lra i m.source).role.toNat
      · rw [if_pos ⟨hpos, hr⟩]
        intro hmem
        exact absurd rfl (List.Nodup.mem_erase_iff (hndi _) |>.mp hmem).1
      · rw [if_neg (fun hab => hr hab.2)]
        intro hmem
        exact hr (((hentry m.source).2 hpos r).mp hmem)
    · rw [if_neg (fun hab => hpos hab.1)]
      exact (hentry m.source).1 (lt_of_not_le hpos) r
  -- final bucket membership
  have hMem : ∀ j r, (j ∈ (ingestApply pref i st m).lna i r ↔
      (if j = m.source then r = m.role.toNat else j ∈ st.lna i r)) := by
    intro j r
    rw [hlna]
    by_cases hr : r = m.role.toNat
    · subst hr
      rw [upd2_same, List.mem_append, List.mem_singleton]
      by_cases hj : j = m.source
      · subst hj
        simp [hASrcNot]
      · rw [if_neg hj]
        simp only [hj, or_false]
        exact hAmemT j _ hj
    · rw [upd2_ne _ _ _ _ _ _ (fun hab => hr hab.2)]
      by_cases hj : j = m.source
      · subst hj
        simp [hASrcNot, hr]
      · rw [if_neg hj]
        exact hAmemT j _ hj
  have hlnaOther : ∀ a r, a ≠ i → (ingestApply pref i st m).lna a r = st.lna a r := by
    intro a r ha
    rw [hlna, upd2_ne _ _ _ _ _ _ (fun hab => ha hab.1)]
    exact hArow a r ha
  refine ⟨?_, ?_, ?_⟩
  · intro a han
    by_cases ha : a = i
    · subst ha
      refine ⟨?_, ?_⟩
      · intro r
        rw [hlna]
        by_cases hr : r = m.role.toNat
        · subst hr
          rw [upd2_same]
          refine List.Nodup.append (hAnd _) (List.nodup_singleton _) ?_
          intro x hx hx2
          rw [List.mem_singleton] at hx2
          subst hx2
          exact hASrcNot _ hx
        · rw [upd2_ne _ _ _ _ _ _ (fun hab => hr hab.2)]
          exact hAnd r
      · intro j
        by_cases hj : j = m.source
        · subst hj
          constructor
          · intro hneg
            rw [hlra, upd2_same] at hneg
            exact absurd hm (not_le.mpr hneg)
          · intro _ r
            rw [hMem m.source r, if_pos rfl, hlra, upd2_same]
        · constructor
          · intro hneg r
            rw [hlra, upd2_ne _ _ _ _ _ _ (fun hab => hj hab.2)] at hneg
            rw [hMem j r, if_neg hj]
            exact (hentry j).1 hneg r
          · intro hpos r
            rw [hlra, upd2_ne _ _ _ _ _ _ (fun hab => hj hab.2)] at hpos ⊢
            rw [hMem j r, if_neg hj]
            exact (hentry j).2 hpos r
    · have hrowA : ∀ r, (ingestApply pref i st m).lna a r = st.lna a r :=
        fun r => hlnaOther a r ha
      have hentryA : ∀ b, (ingestApply pref i st m).lra a b = st.lra a b := by
        intro b
        rw [hlra, upd2_ne _ _ _ _ _ _ (fun hab => ha hab.1)]
      refine ⟨fun r => hrowA r ▸ (hbuck a han).1 r, fun j => ?_⟩
      constructor
      · intro hneg r
        rw [hentryA] at hneg
        rw [hrowA r]
        exact ((hbuck a han).2 j).1 hneg r
      · intro hpos r
        rw [hentryA j] at hpos
        rw [hrowA r, hentryA j]
        exact ((hbuck a han).2 j).2 hpos r
  · intro a b hab
    rw [htfl] at hab
    by_cases hkey : a = i ∧ b = m.source
    · obtain ⟨h1, h2⟩ := hkey
      subst h1; subst h2
      rw [hlra, upd2_same]
      exact hm
    · rw [upd2_ne _ _ _ _ _ _ hkey] at hab
      rw [hlra, upd2_ne _ _ _ _ _ _ hkey]
      exact htf a b hab
  · intro t m2 hm2
    rw [hrx2] at hm2
    exact hrx t m2 hm2

end TrigridRole

namespace TrigridRole

/-- Transporting consistency along equal components. -/
theorem consistent_congr {n : Nat} {st st' : SysState} (hc : Consistent n st)
    (h1 : st'.lna = st.lna) (h2 : st'.lra = st.lra) (h3 : st'.tflag = st.tflag)
    (h4 : st'.rx = st.rx) : Consistent n st' := by
  obtain ⟨hbuck, htf, hrx⟩ := hc
  refine ⟨?_, ?_, ?_⟩
  · intro i hi
    rw [h1, h2]
    exact hbuck i hi
  · intro a b
    rw [h3, h2]
    exact htf a b
  · intro t m
    rw [h4]
    exact hrx t m

/-- A successful reselection at a node below `n` preserves the
consistency invariant. -/
theorem reselect_consistent {n : Nat} {pref : Nat → Nat → ℚ} {i : Nat}
    {iter : Int} {st st' : SysState} (hc : Consistent n st) (hi : i < n)
    (h : reselect n pref i iter st = some st') : Consistent n st' := by
  obtain ⟨hbuck, htf, hrx⟩ := hc
  have hndi := (hbuck i hi).1
  have hentry := (hbuck i hi).2
  unfold reselect at h
  split at h
  · exact absurd h (by simp)
  · rename_i hguard
    cases h
    set rN := argmaxFirst (maskedRow pref i st) n with hrN
    have hfree : st.lna i rN = [] ∧ rN ≠ (st.lra i i).role.toNat := by
      constructor
      · by_contra hne
        apply hguard
        have : maskedRow pref i st rN = -1 := by
          unfold maskedRow
          by_cases h1 : rN = (st.lra i i).role.toNat
          · rw [if_pos h1]
          · rw [if_neg h1, if_pos hne]
        rw [this]; norm_num
      · intro heq
        apply hguard
        have : maskedRow pref i st rN = -1 := by
          unfold maskedRow
          rw [if_pos heq]
        rw [this]; norm_num
    have hlra : (reselectApply n pref i iter st).lra =
        upd2 st.lra i i ⟨(rN : Int), pref i rN, iter⟩ := rfl
    have htfl : (reselectApply n pref i iter st).tflag =
        upd2 st.tflag i i true := rfl
    have hrx2 : (reselectApply n pref i iter st).rx = st.rx := rfl
    set lna1 := upd2 st.lna i (st.lra i i).role.toNat
      ((st.lna i (st.lra i i).role.toNat).erase i) with hlna1
    have hlna : (reselectApply n pref i iter st).lna =
        upd2 lna1 i rN (lna1 i rN ++ [i]) := rfl
    have hArow : ∀ a r, a ≠ i → lna1 a r = st.lna a r := by
      intro a r ha
      rw [hlna1]
      exact upd2_ne _ _ _ _ _ _ (fun hab => ha hab.1)
    have hAi : ∀ r, lna1 i r =
        if r = (st.lra i i).role.toNat then
          (st.lna i (st.lra i i).role.toNat).erase i
        else st.lna i r := by
      intro r
      rw [hlna1]
      by_cases hr : r = (st.lra i i).role.toNat
      · subst hr
        rw [upd2_same, if_pos rfl]
      · rw [upd2_ne _ _ _ _ _ _ (fun hab => hr hab.2), if_neg hr]
    have hAnd : ∀ r, (lna1 i r).Nodup := by
      intro r
      rw [hAi]
      split
      · exact (hndi _).erase _
      · exact hndi r
    have hAmemT : ∀ j r, j ≠ i → (j ∈ lna1 i r ↔ j ∈ st.lna i r) := by
      intro j r hj
      rw [hAi]
      split
      · rename_i hcond
        rw [List.Nodup.mem_erase_iff (hndi _), hcond]
        exact ⟨fun h2 => h2.2, fun h2 => ⟨hj, h2⟩⟩
      · exact Iff.rfl
    have hASelfNot : ∀ r, i ∉ lna1 i r := by
      intro r
      rw [hAi]
      by_cases hr : r = (st.lra i i).role.toNat
      · rw [if_pos hr]
        intro hmem
        exact absurd rfl (List.Nodup.mem_erase_iff (hndi _) |>.mp hmem).1
      · rw [if_neg hr]
        intro hmem
        by_cases hpos : 0 ≤ (st.lra i i).role
        · exact hr (((hentry i).2 hpos r).mp hmem)
        · exact (hentry i).1 (lt_of_not_le hpos) r hmem
    have hMem : ∀ j r, (j ∈ (reselectApply n pref i iter st).lna i r ↔
        (if j = i then r = rN else j ∈ st.lna i r)) := by
      intro j r
      rw [hlna]
      by_cases hr : r = rN
      · subst hr
        rw [upd2_same, List.mem_append, List.mem_singleton]
        by_cases hj : j = i
        · subst hj
          simp [hASelfNot]
        · rw [if_neg hj]
          simp only [hj, or_false]
          exact hAmemT j _ hj
      · rw [upd2_ne _ _ _ _ _ _ (fun hab => hr hab.2)]
        by_cases hj : j = i
        · subst hj
          simp [hASelfNot, hr]
        · rw [if_neg hj]
          exact hAmemT j _ hj
    refine ⟨?_, ?_, ?_⟩
    · intro a han
      by_cases ha : a = i
      · subst ha
        refine ⟨?_, ?_⟩
        · intro r
          rw [hlna]
          by_cases hr : r = rN
          · subst hr
            rw [upd2_same]
            refine List.Nodup.append (hAnd _) (List.nodup_singleton _) ?_
            intro x hx hx2
            rw [List.mem_singleton] at hx2
            subst hx2
            exact hASelfNot _ hx
          · rw [upd2_ne _ _ _ _ _ _ (fun hab => hr hab.2)]
            exact hAnd r
        · intro j
          by_cases hj : j = a
          · subst hj
            constructor
            · intro hneg
              rw [hlra, upd2_same] at hneg
              exact absurd (Int.natCast_nonneg rN) (not_le.mpr hneg)
            · intro _ r
              rw [hMem j r, if_pos rfl, hlra, upd2_same]
              show r = rN ↔ r = (Int.toNat ((rN : Nat) : Int))
              rw [Int.toNat_natCast]
          · constructor
            · intro hneg r
              rw [hlra, upd2_ne _ _ _ _ _ _ (fun hab => hj hab.2)] at hneg
              rw [hMem j r, if_neg hj]
              exact (hentry j).1 hneg r
            · intro hpos r
              rw [hlra, upd2_ne _ _ _ _ _ _ (fun hab => hj hab.2)] at hpos
              rw [hMem j r, if_neg hj, hlra,
                upd2_ne _ _ _ _ _ _ (fun hab => hj hab.2)]
              exact (hentry j).2 hpos r
      · have hrowA : ∀ r, (reselectApply n pref i iter st).lna a r = st.lna a r := by
          intro r
          rw [hlna, upd2_ne _ _ _ _ _ _ (fun hab => ha hab.1)]
          exact hArow a r ha
        have hentryA : ∀ b, (reselectApply n pref i iter st).lra a b = st.lra a b := by
          intro b
          rw [hlra, upd2_ne _ _ _ _ _ _ (fun hab => ha hab.1)]
        refine ⟨fun r => hrowA r ▸ (hbuck a han).1 r, fun j => ?_⟩
        constructor
        · intro hneg r
          rw [hentryA j] at hneg
          rw [hrowA r]
          exact ((hbuck a han).2 j).1 hneg r
        · intro hpos r
          rw [hentryA j] at hpos
          rw [hrowA r, hentryA j]
          exact ((hbuck a han).2 j).2 hpos r
    · intro a b hab
      rw [htfl] at hab
      by_cases hkey : a = i ∧ b = i
      · obtain ⟨h1, h2⟩ := hkey
        subst h1; subst h2
        rw [hlra, upd2_same]
        exact Int.natCast_nonneg rN
      · rw [upd2_ne _ _ _ _ _ _ hkey] at hab
        rw [hlra, upd2_ne _ _ _ _ _ _ hkey]
        exact htf a b hab
    · intro t m2 hm2
      rw [hrx2] at hm2
      exact hrx t m2 hm2

end TrigridRole

namespace TrigridRole

/-- One message ingest at a node below `n` preserves the consistency
invariant when the message carries a nonnegative role. -/
theorem ingestMsg_consistent {n : Nat} {pref : Nat → Nat → ℚ} {i : Nat}
    {st st' : SysState} {m : Message} (hc : Consistent n st) (hi : i < n)
    (hm : 0 ≤ m.role) (h : ingestMsg pref i st m = some st') : Consistent n st' := by
  unfold ingestMsg at h
  split at h
  · simp at h
  · split at h
    · cases h
      exact ingestApply_consistent hc hi hm
    · cases h
      exact hc

/-- Node `i`'s whole message list preserves the consistency invariant. -/
theorem ingestList_consistent {n : Nat} {pref : Nat → Nat → ℚ} {i : Nat}
    {msgs : List Message} {st st' : SysState} (hc : Consistent n st) (hi : i < n)
    (hm : ∀ m, m ∈ msgs → 0 ≤ m.role)
    (h : ingestList pref i msgs st = some st') : Consistent n st' := by
  induction msgs generalizing st with
  | nil =>
    unfold ingestList at h
    rw [List.foldlM_nil] at h
    cases h
    exact hc
  | cons m rest ih =>
    unfold ingestList at h
    rw [List.foldlM_cons, Option.bind_eq_bind] at h
    obtain ⟨mid, h1, h2⟩ := Option.bind_eq_some'.mp h
    exact ih (ingestMsg_consistent hc hi (hm m (List.mem_cons_self m rest)) h1)
      (fun m2 hm2 => hm m2 (List.mem_cons_of_mem m hm2)) h2

/-- The message-processing loop over a list of nodes below `n` preserves
the consistency invariant. -/
theorem ingestFold_consistent {n : Nat} {pref : Nat → Nat → ℚ}
    {buf : Nat → List Message} {l : List Nat} {st st' : SysState}
    (hc : Consistent n st) (hl : ∀ i, i ∈ l → i < n)
    (hm : ∀ i m, m ∈ buf i → 0 ≤ m.role)
    (h : l.foldlM (fun s i => ingestList pref i (buf i) s) st = some st') :
    Consistent n st' := by
  induction l generalizing st with
  | nil =>
    rw [List.foldlM_nil] at h
    cases h
    exact hc
  | cons i rest ih =>
    rw [List.foldlM_cons, Option.bind_eq_bind] at h
    obtain ⟨mid, h1, h2⟩ := Option.bind_eq_some'.mp h
    exact ih (ingestList_consistent hc (hl i (List.mem_cons_self i rest))
      (fun m2 hm2 => hm i m2 hm2) h1) (fun i2 hi2 => hl i2 (List.mem_cons_of_mem i hi2)) h2

/-- The role-changing loop over a list of nodes below `n` preserves the
consistency invariant. -/
theorem yieldFold_consistent {n : Nat} {pref : Nat → Nat → ℚ} {iter : Int}
    {l : List Nat} {st st' : SysState} (hc : Consistent n st)
    (hl : ∀ i, i ∈ l → i < n)
    (h : l.foldlM (fun s i => if s.cflag i then reselect n pref i iter s else pure s)
      st = some st') : Consistent n st' := by
  induction l generalizing st with
  | nil =>
    rw [List.foldlM_nil] at h
    cases h
    exact hc
  | cons i rest ih =>
    rw [List.foldlM_cons, Option.bind_eq_bind] at h
    obtain ⟨mid, h1, h2⟩ := Option.bind_eq_some'.mp h
    have hmid : Consistent n mid := by
      by_cases hcf : st.cflag i
      · rw [if_pos hcf] at h1
        exact reselect_consistent hc (hl i (List.mem_cons_self i rest)) h1
      · rw [if_neg hcf] at h1
        cases h1
        exact hc
    exact ih hmid (fun i2 hi2 => hl i2 (List.mem_cons_of_mem i hi2)) h2

/-- One transmission step preserves the consistency invariant. -/
theorem transmitOne_consistent {n : Nat} {nsend : Nat → Nat → List Nat}
    {tr src : Nat} {s2 : SysState} (hc : Consistent n s2) :
    Consistent n (transmitOne nsend tr s2 src) := by
  obtain ⟨hbuck, htf, hrx⟩ := hc
  unfold transmitOne
  by_cases hfl : s2.tflag tr src
  · rw [if_pos hfl]
    refine ⟨hbuck, ?_, ?_⟩
    · intro a b hab
      have hab2 : upd2 s2.tflag tr src false a b = true := hab
      by_cases hkey : a = tr ∧ b = src
      · obtain ⟨h1, h2⟩ := hkey
        subst h1; subst h2
        rw [upd2_same] at hab2
        exact absurd hab2 (by simp)
      · rw [upd2_ne _ _ _ _ _ _ hkey] at hab2
        exact htf a b hab2
    · intro t m2 hm2
      have hm3 : m2 ∈ ((nsend src tr).foldl
          (fun r t2 => upd1 r t2 (r t2 ++ [⟨src, (s2.lra tr src).role,
            (s2.lra tr src).prob, (s2.lra tr src).ts⟩])) s2.rx) t := hm2
      rw [rxInnerFold_eq] at hm3
      rcases List.mem_append.mp hm3 with hmem | hmem
      · exact hrx t m2 hmem
      · have hm4 := List.eq_of_mem_replicate hmem
        subst hm4
        exact htf tr src hfl
  · rw [if_neg hfl]
    exact ⟨hbuck, htf, hrx⟩

/-- The whole transmission phase preserves the consistency invariant. -/
theorem transmitPhase_consistent {n : Nat} {nsend : Nat → Nat → List Nat}
    {st : SysState} (hc : Consistent n st) :
    Consistent n (transmitPhase n nsend st) := by
  unfold transmitPhase
  have hgen : ∀ (lt : List Nat) (s : SysState), Consistent n s →
      Consistent n (lt.foldl (fun s2 tr => (List.range n).foldl (transmitOne nsend tr) s2) s) := by
    intro lt
    induction lt with
    | nil => exact fun s hs => hs
    | cons tr rest ih =>
      intro s hs
      rw [List.foldl_cons]
      apply ih
      have hinner : ∀ (ls : List Nat) (s3 : SysState), Consistent n s3 →
          Consistent n (ls.foldl (transmitOne nsend tr) s3) := by
        intro ls
        induction ls with
        | nil => exact fun s3 hs3 => hs3
        | cons src rest2 ih2 =>
          intro s3 hs3
          rw [List.foldl_cons]
          exact ih2 _ (transmitOne_consistent hs3)
      exact hinner (List.range n) s hs
  exact hgen (List.range n) st hc

/-- The convergence phase preserves the consistency invariant. -/
theorem convergePhase_consistent {n : Nat} {st : SysState}
    (hc : Consistent n st) : Consistent n (convergePhase n st) := by
  unfold convergePhase
  have hgen : ∀ (l : List Nat) (s : SysState), Consistent n s →
      Consistent n (l.foldl (convergeOne n) s) := by
    intro l
    induction l with
    | nil => exact fun s hs => hs
    | cons i rest ih =>
      intro s hs
      rw [List.foldl_cons]
      apply ih
      obtain ⟨k1, k2, k3, _⟩ := convergeOne_keeps n s i
      have k5 : (convergeOne n s i).tflag = s.tflag := by
        unfold convergeOne
        split
        · rfl
        · split
          · rfl
          · rfl
      exact consistent_congr hs k1 k2 k5 k3
  exact hgen (List.range n) st hc

/-- C9.  One full round — ingest, yield-and-reselect, relay, convergence
check — preserves the consistency invariant between each node's Local
Claim Table and Local Role Registry: node `j` is in `i`'s bucket for role
`r` iff `i`'s claim-table entry for `j` records role `r`, unknown entries
belong to no bucket (with the bookkeeping strengthening recorded in
`Consistent`). -/
theorem round_preserves_registry_consistency {n : Nat} {pref : Nat → Nat → ℚ}
    {nsend : Nat → Nat → List Nat} {st st' : SysState} (hc : Consistent n st)
    (h : step n pref nsend st = some st') : Consistent n st' := by
  obtain ⟨hbuck, htf, hrx⟩ := hc
  unfold step at h
  obtain ⟨st1, h1, h2⟩ := Option.bind_eq_some'.mp h
  obtain ⟨st2, h3, h4⟩ := Option.map_eq_some'.mp h2
  subst h4
  have hc0 : Consistent n { st with rx := fun _ => [], iter := st.iter + 1 } := by
    refine ⟨hbuck, htf, ?_⟩
    intro t m2 hm2
    exact absurd hm2 (List.not_mem_nil m2)
  have hc1 : Consistent n st1 := by
    unfold ingestAll at h1
    exact ingestFold_consistent hc0 (fun i hi => List.mem_range.mp hi)
      (fun i m2 hm2 => hrx i m2 hm2) h1
  have hc2 : Consistent n st2 := by
    unfold yieldPhase at h3
    exact yieldFold_consistent hc1 (fun i hi => List.mem_range.mp hi) h3
  exact convergePhase_consistent (transmitPhase_consistent hc2)

/-- The initial state satisfies the consistency invariant. -/
theorem initState_consistent (n : Nat) (cl : Nat → List Nat)
    (pref : Nat → Nat → ℚ) : Consistent n (initState n cl pref) := by
  refine ⟨?_, ?_, ?_⟩
  · intro i _
    constructor
    · intro r
      show (if r = initRole n pref i then [i] else []).Nodup
      split
      · exact List.nodup_singleton i
      · exact List.nodup_nil
    · intro j
      constructor
      · intro hneg r hmem
        have hmem2 : j ∈ (if r = initRole n pref i then [i] else []) := hmem
        by_cases hj : j = i
        · subst hj
          have hown : (initState n cl pref).lra j j = ⟨(initRole n pref j : Int),
              pref j (initRole n pref j), 0⟩ := by
            show (if j = j then _ else _) = _
            rw [if_pos rfl]
          rw [hown] at hneg
          exact absurd (Int.natCast_nonneg (initRole n pref j)) (not_le.mpr hneg)
        · split at hmem2
          · rw [List.mem_singleton] at hmem2
            exact hj hmem2
          · exact absurd hmem2 (List.not_mem_nil j)
      · intro hpos r
        have hentry : (initState n cl pref).lra i j =
            (if j = i then ⟨(initRole n pref i : Int), pref i (initRole n pref i), 0⟩
             else ⟨-1, 0, -1⟩) := rfl
        by_cases hj : j = i
        · subst hj
          rw [hentry, if_pos rfl]
          show j ∈ (if r = initRole n pref j then [j] else []) ↔ _
          rw [Int.toNat_natCast]
          split
          · rename_i hr
            simp [hr]
          · rename_i hr
            simp [hr]
        · rw [hentry, if_neg hj] at hpos
          exact absurd (by norm_num : ((⟨-1, 0, -1⟩ : Entry)).role < 0) (not_lt.mpr hpos)
  · intro a b hab
    exact absurd hab (by simp [initState])
  · intro t m2 hm2
    have hm3 : m2 ∈ initRx n cl pref t := hm2
    unfold initRx at hm3
    rw [rxOuterFold_eq] at hm3
    rw [List.nil_append] at hm3
    rw [List.mem_flatten] at hm3
    obtain ⟨bl, hbl, hmem⟩ := hm3
    rw [List.mem_map] at hbl
    obtain ⟨s, _, hs⟩ := hbl
    subst hs
    have := List.eq_of_mem_replicate hmem
    subst this
    exact Int.natCast_nonneg _

/-- Witness for C9: the 3-node example's initial state is consistent and
stays consistent after one round. -/
theorem round_preserves_registry_consistency_witness :
    Consistent 3 (initState 3 (connList 3 exConn) exPref) ∧
      ∃ st', step 3 exPref (neighborsSend 3 exConn)
          (initState 3 (connList 3 exConn) exPref) = some st' ∧ Consistent 3 st' := by
  refine ⟨initState_consistent 3 (connList 3 exConn) exPref, ?_⟩
  match hrun : step 3 exPref (neighborsSend 3 exConn)
      (initState 3 (connList 3 exConn) exPref) with
  | none =>
    have hs2 : (step 3 exPref (neighborsSend 3 exConn)
        (initState 3 (connList 3 exConn) exPref)).isSome = true := by decide
    rw [hrun] at hs2
    exact absurd hs2 (by simp)
  | some st' =>
    exact ⟨st', rfl, round_preserves_registry_consistency
      (initState_consistent 3 (connList 3 exConn) exPref) hrun⟩

end TrigridRole

namespace TrigridRole

/-! ## The conflict mark (C6) -/

/-- Effect of one message (from another node) on node `i`'s own fields:
the own claim entry is untouched, the stored time stamp of the message's
source becomes the maximum of the old one and the message's, other
sources' entries are untouched, and the change flag becomes true exactly
when it was true or the message was applied (strictly newer time stamp)
and conflicts with `i`'s current claim at no smaller strength. -/
theorem ingestMsg_own_effects {pref : Nat → Nat → ℚ} {i : Nat} {st : SysState}
    {m : Message} (hsrc : m.source ≠ i) :
    ∃ st1, ingestMsg pref i st m = some st1 ∧
      st1.lra i i = st.lra i i ∧
      (∀ s, s ≠ m.source → st1.lra i s = st.lra i s) ∧
      (st1.lra i m.source).ts = max (st.lra i m.source).ts m.ts ∧
      (st1.cflag i = true ↔
        (st.cflag i = true ∨
          ((st.lra i m.source).ts < m.ts ∧ m.role = (st.lra i i).role ∧
            pref i (st.lra i i).role.toNat ≤ m.prob))) := by
  unfold ingestMsg
  rw [if_neg hsrc]
  by_cases hts : (st.lra i m.source).ts < m.ts
  · rw [if_pos hts]
    refine ⟨ingestApply pref i st m, rfl, ?_, ?_, ?_, ?_⟩
    · show upd2 st.lra i m.source _ i i = st.lra i i
      rw [upd2_ne _ _ _ _ _ _ (fun hab => hsrc hab.2.symm)]
    · intro s hs
      show upd2 st.lra i m.source _ i s = st.lra i s
      rw [upd2_ne _ _ _ _ _ _ (fun hab => hs hab.2)]
    · show (upd2 st.lra i m.source ⟨m.role, m.prob, m.ts⟩ i m.source).ts = _
      rw [upd2_same]
      exact (max_eq_right (le_of_lt hts)).symm
    · show (if m.role = (st.lra i i).role ∧ pref i (st.lra i i).role.toNat ≤ m.prob
          then upd1 st.cflag i true else st.cflag) i = true ↔ _
      split
      · rw [upd1_same]
        rename_i hcond
        exact ⟨fun _ => Or.inr ⟨hts, hcond⟩, fun _ => rfl⟩
      · rename_i hcond
        constructor
        · exact fun h2 => Or.inl h2
        · rintro (h2 | h2)
          · exact h2
          · exact absurd ⟨h2.2.1, h2.2.2⟩ hcond
  · rw [if_neg hts]
    refine ⟨st, rfl, rfl, fun s _ => rfl, (max_eq_left (le_of_not_lt hts)).symm, ?_⟩
    constructor
    · exact fun h2 => Or.inl h2
    · rintro (h2 | h2)
      · exact h2
      · exact absurd h2.1 hts

/-- The change flag is never cleared during message ingestion. -/
theorem ingestList_cflag_mono {pref : Nat → Nat → ℚ} {i : Nat}
    {msgs : List Message} {st st' : SysState}
    (hsrc : ∀ m, m ∈ msgs → m.source ≠ i)
    (h : ingestList pref i msgs st = some st') (hc : st.cflag i = true) :
    st'.cflag i = true := by
  induction msgs generalizing st with
  | nil =>
    unfold ingestList at h
    rw [List.foldlM_nil] at h
    cases h
    exact hc
  | cons m rest ih =>
    unfold ingestList at h
    rw [List.foldlM_cons, Option.bind_eq_bind] at h
    obtain ⟨mid, h1, h2⟩ := Option.bind_eq_some'.mp h
    obtain ⟨st1, he, _, _, _, hflag⟩ :=
      @ingestMsg_own_effects pref i st m
        (hsrc m (List.mem_cons_self m rest))
    rw [he] at h1
    cases h1
    exact ih (fun m2 hm2 => hsrc m2 (List.mem_cons_of_mem m hm2)) h2
      (hflag.mpr (Or.inl hc))

end TrigridRole

namespace TrigridRole

/-- C6.  During a round, node `i` (entering the round unmarked) ends the
ingestion of its message list marked to yield iff some message in the
list was applied as an update — its time stamp strictly newer than the
stored one at its processing point, i.e. newer than both the initially
stored stamp of its source and every earlier same-source message — whose
role equals `i`'s own currently claimed role with strength at least
(`≥`, equality included) `i`'s own preference for that role
(lines 304, 315-322). -/
theorem yield_mark_iff_fresh_conflicting_update
    {pref : Nat → Nat → ℚ} {i : Nat} {msgs : List Message} {st st' : SysState}
    (hsrc : ∀ m, m ∈ msgs → m.source ≠ i)
    (hcf : st.cflag i = false)
    (h : ingestList pref i msgs st = some st') :
    (st'.cflag i = true ↔
      ∃ pre m post, msgs = pre ++ m :: post ∧
        (st.lra i m.source).ts < m.ts ∧
        (∀ m2, m2 ∈ pre → m2.source = m.source → m2.ts < m.ts) ∧
        m.role = (st.lra i i).role ∧
        pref i (st.lra i i).role.toNat ≤ m.prob) := by
  induction msgs generalizing st with
  | nil =>
    unfold ingestList at h
    rw [List.foldlM_nil] at h
    cases h
    rw [hcf]
    constructor
    · intro hfalse
      exact absurd hfalse (by simp)
    · rintro ⟨pre, m, post, heq, -⟩
      exact absurd heq (by simp)
  | cons m0 rest ih =>
    unfold ingestList at h
    rw [List.foldlM_cons, Option.bind_eq_bind] at h
    obtain ⟨mid, h1, h2⟩ := Option.bind_eq_some'.mp h
    obtain ⟨st1, he, hownE, hother, hmaxts, hflag⟩ :=
      @ingestMsg_own_effects pref i st m0
        (hsrc m0 (List.mem_cons_self m0 rest))
    rw [he] at h1
    cases h1
    by_cases hCA : (st.lra i m0.source).ts < m0.ts ∧ m0.role = (st.lra i i).role ∧
        pref i (st.lra i i).role.toNat ≤ m0.prob
    · have h1t : mid.cflag i = true := hflag.mpr (Or.inr hCA)
      have hT : st'.cflag i = true :=
        ingestList_cflag_mono (fun m2 hm2 => hsrc m2 (List.mem_cons_of_mem m0 hm2))
          h2 h1t
      rw [hT]
      constructor
      · intro _
        exact ⟨[], m0, rest, rfl, hCA.1,
          fun m2 hm2 _ => absurd hm2 (List.not_mem_nil m2), hCA.2.1, hCA.2.2⟩
      · intro _
        rfl
    · have h1f : mid.cflag i = false := by
        cases hb : mid.cflag i
        · rfl
        · rcases hflag.mp hb with hcon | hcon
          · rw [hcf] at hcon
            exact absurd hcon (by simp)
          · exact absurd hcon hCA
      rw [ih (fun m2 hm2 => hsrc m2 (List.mem_cons_of_mem m0 hm2)) h1f h2]
      constructor
      · rintro ⟨pre, m, post, heq, happ, hpre, hrole, hprob⟩
        rw [hownE] at hrole hprob
        refine ⟨m0 :: pre, m, post, by simp [heq], ?_, ?_, hrole, hprob⟩
        · by_cases hsm : m.source = m0.source
          · rw [hsm, hmaxts] at happ
            rw [hsm]
            exact lt_of_le_of_lt (le_max_left _ _) happ
          · rw [← hother m.source hsm]
            exact happ
        · intro m2 hm2 hs2
          rcases List.mem_cons.mp hm2 with hm2 | hm2
          · subst hm2
            rw [← hs2, hmaxts] at happ
            exact lt_of_le_of_lt (le_max_right _ _) happ
          · exact hpre m2 hm2 hs2
      · rintro ⟨pre, m, post, heq, happ, hpre, hrole, hprob⟩
        cases pre with
        | nil =>
          rw [List.nil_append] at heq
          injection heq with hm0 hrest
          subst hm0
          exact absurd ⟨happ, hrole, hprob⟩ hCA
        | cons p0 pre' =>
          rw [List.cons_append] at heq
          injection heq with hp0 hrest
          subst hp0
          rw [← hownE] at hrole hprob
          refine ⟨pre', m, post, hrest, ?_, ?_, hrole, hprob⟩
          · by_cases hsm : m.source = m0.source
            · rw [hsm, hmaxts]
              refine max_lt ?_ ?_
              · rw [← hsm]
                exact happ
              · exact hpre m0 (List.mem_cons_self m0 pre') hsm.symm
            · rw [hother m.source hsm]
              exact happ
          · intro m2 hm2 hs2
            exact hpre m2 (List.mem_cons_of_mem m0 hm2) hs2

/-- Witness for C6: in round 1 of the 3-node example, node 0's inbox is
`[⟨1, role 2, 3, ts 0⟩, ⟨2, role 2, 3, ts 0⟩]`; the first message is a
fresh update with node 0's own role 2 and equal strength 3, so node 0
ends the ingest marked to yield. -/
theorem yield_mark_iff_fresh_conflicting_update_witness :
    ∃ st', ingestList exPref 0
        ((initState 3 (connList 3 exConn) exPref).rx 0)
        (initState 3 (connList 3 exConn) exPref) = some st' ∧
      st'.cflag 0 = true := by
  match hrun : ingestList exPref 0 ((initState 3 (connList 3 exConn) exPref).rx 0)
      (initState 3 (connList 3 exConn) exPref) with
  | none =>
    have hs2 : (ingestList exPref 0 ((initState 3 (connList 3 exConn) exPref).rx 0)
        (initState 3 (connList 3 exConn) exPref)).isSome = true := by decide
    rw [hrun] at hs2
    exact absurd hs2 (by simp)
  | some st' =>
    refine ⟨st', rfl, ?_⟩
    rw [yield_mark_iff_fresh_conflicting_update
      (by decide) (by decide) hrun]
    refine ⟨[], initMsg 3 exPref 1, [initMsg 3 exPref 2], by decide, by decide,
      fun m2 hm2 _ => absurd hm2 (List.not_mem_nil m2), by decide, by decide⟩

end TrigridRole

namespace TrigridRole

/-! ## Characterising the gradient construction -/

/-- Membership in a connection list. -/
theorem connList_mem {n : Nat} {conn : Nat → Nat → Bool} {t v : Nat} :
    v ∈ connList n conn t ↔ v < n ∧ conn t v = true := by
  unfold connList
  rw [List.mem_filter, List.mem_range]

/-- Characterisation of the inner loop of one frontier expansion (the loop
over `connection_lists[target]`, lines 171-175): a cell is set to `g + 1`
exactly when it is not the source, was unassigned, and occurs in the
scanned list; exactly those cells are appended to the new-target list. -/
theorem expandInner_char (source g : Nat) (lt : List Nat)
    (acc : (Nat → Nat) × List Nat) :
    (∀ v, (lt.foldl
        (fun acc2 tn =>
          if tn = source then acc2
          else if acc2.1 tn = 0 then (upd1 acc2.1 tn (g + 1), acc2.2 ++ [tn])
          else acc2) acc).1 v =
      if v ≠ source ∧ acc.1 v = 0 ∧ v ∈ lt then g + 1 else acc.1 v) ∧
    (∀ v, v ∈ (lt.foldl
        (fun acc2 tn =>
          if tn = source then acc2
          else if acc2.1 tn = 0 then (upd1 acc2.1 tn (g + 1), acc2.2 ++ [tn])
          else acc2) acc).2 ↔
      v ∈ acc.2 ∨ (v ≠ source ∧ acc.1 v = 0 ∧ v ∈ lt)) := by
  induction lt generalizing acc with
  | nil =>
    constructor
    · intro v
      rw [List.foldl_nil, if_neg]
      rintro ⟨-, -, hv⟩
      exact List.not_mem_nil v hv
    · intro v
      rw [List.foldl_nil]
      simp
  | cons u rest ih =>
    rw [List.foldl_cons]
    by_cases hu : u = source
    · rw [if_pos hu]
      obtain ⟨ihr, ihm⟩ := ih acc
      constructor
      · intro v
        rw [ihr v]
        by_cases hcond : v ≠ source ∧ acc.1 v = 0 ∧ v ∈ rest
        · rw [if_pos hcond,
            if_pos ⟨hcond.1, hcond.2.1, List.mem_cons_of_mem u hcond.2.2⟩]
        · rw [if_neg hcond, if_neg (fun hc => hcond ⟨hc.1, hc.2.1, by
            rcases List.mem_cons.mp hc.2.2 with h2 | h2
            · exact absurd (h2.trans hu) hc.1
            · exact h2⟩)]
      · intro v
        rw [ihm v]
        constructor
        · rintro (h | ⟨a, b, c⟩)
          · exact Or.inl h
          · exact Or.inr ⟨a, b, List.mem_cons_of_mem u c⟩
        · rintro (h | ⟨a, b, c⟩)
          · exact Or.inl h
          · rcases List.mem_cons.mp c with hc | hc
            · exact absurd (hc.trans hu) a
            · exact Or.inr ⟨a, b, hc⟩
    · by_cases hz : acc.1 u = 0
      · rw [if_neg hu, if_pos hz]
        obtain ⟨ihr, ihm⟩ := ih (upd1 acc.1 u (g + 1), acc.2 ++ [u])
        have hfst : ∀ w, (upd1 acc.1 u (g + 1), acc.2 ++ [u]).1 w =
            upd1 acc.1 u (g + 1) w := fun w => rfl
        have hsnd : (upd1 acc.1 u (g + 1), acc.2 ++ [u]).2 = acc.2 ++ [u] := rfl
        simp only [hfst, hsnd] at ihr ihm
        constructor
        · intro v
          rw [ihr v]
          by_cases hvu : v = u
          · subst hvu
            rw [if_neg (fun hc => by
              have h2 := hc.2.1
              rw [upd1_same] at h2
              exact absurd h2 (by omega))]
            rw [upd1_same]
            rw [if_pos ⟨hu, hz, List.mem_cons_self v rest⟩]
          · rw [upd1_ne _ _ _ _ hvu]
            by_cases hcond : v ≠ source ∧ acc.1 v = 0 ∧ v ∈ rest
            · rw [if_pos hcond, if_pos ⟨hcond.1, hcond.2.1,
                List.mem_cons_of_mem u hcond.2.2⟩]
            · rw [if_neg hcond, if_neg (fun hc => hcond ⟨hc.1, hc.2.1, by
                rcases List.mem_cons.mp hc.2.2 with h2 | h2
                · exact absurd h2 hvu
                · exact h2⟩)]
        · intro v
          rw [ihm v]
          rw [List.mem_append, List.mem_singleton]
          constructor
          · rintro ((h | h) | ⟨a, b, c⟩)
            · exact Or.inl h
            · subst h
              exact Or.inr ⟨hu, hz, List.mem_cons_self v rest⟩
            · by_cases hvu : v = u
              · subst hvu
                exact Or.inr ⟨hu, hz, List.mem_cons_self v rest⟩
              · rw [upd1_ne _ _ _ _ hvu] at b
                exact Or.inr ⟨a, b, List.mem_cons_of_mem u c⟩
          · rintro (h | ⟨a, b, c⟩)
            · exact Or.inl (Or.inl h)
            · by_cases hvu : v = u
              · exact Or.inl (Or.inr hvu)
              · rcases List.mem_cons.mp c with h2 | h2
                · exact absurd h2 hvu
                · refine Or.inr ⟨a, ?_, h2⟩
                  rw [upd1_ne _ _ _ _ hvu]
                  exact b
      · rw [if_neg hu, if_neg hz]
        obtain ⟨ihr, ihm⟩ := ih acc
        constructor
        · intro v
          rw [ihr v]
          by_cases hcond : v ≠ source ∧ acc.1 v = 0 ∧ v ∈ rest
          · rw [if_pos hcond, if_pos ⟨hcond.1, hcond.2.1,
              List.mem_cons_of_mem u hcond.2.2⟩]
          · rw [if_neg hcond, if_neg (fun hc => hcond ⟨hc.1, hc.2.1, by
              rcases List.mem_cons.mp hc.2.2 with h2 | h2
              · exact absurd (h2 ▸ hc.2.1) hz
              · exact h2⟩)]
        · intro v
          rw [ihm v]
          by_cases hvu : v = u
          · subst hvu
            constructor
            · rintro (h | ⟨-, b, -⟩)
              · exact Or.inl h
              · exact absurd b hz
            · rintro (h | ⟨-, b, -⟩)
              · exact Or.inl h
              · exact absurd b hz
          · constructor
            · rintro (h | ⟨a, b, c⟩)
              · exact Or.inl h
              · exact Or.inr ⟨a, b, List.mem_cons_of_mem u c⟩
            · rintro (h | ⟨a, b, c⟩)
              · exact Or.inl h
              · rcases List.mem_cons.mp c with h2 | h2
                · exact absurd h2 hvu
                · exact Or.inr ⟨a, b, h2⟩

end TrigridRole

namespace TrigridRole

/-- Characterisation of one whole frontier expansion (lines 169-175): a
cell is set to `g + 1` exactly when it is not the source, was unassigned,
and neighbours some frontier node; exactly those cells make up the new
frontier (`targets_temp`). -/
theorem expandFrontier_char (cl : Nat → List Nat) (source g : Nat)
    (fr : List Nat) (row : Nat → Nat) :
    (∀ v, (expandFrontier cl source g row fr).1 v =
      if v ≠ source ∧ row v = 0 ∧ ∃ t, t ∈ fr ∧ v ∈ cl t then g + 1 else row v) ∧
    (∀ v, v ∈ (expandFrontier cl source g row fr).2 ↔
      (v ≠ source ∧ row v = 0 ∧ ∃ t, t ∈ fr ∧ v ∈ cl t)) := by
  have key : ∀ (fr2 : List Nat) (acc : (Nat → Nat) × List Nat),
      (∀ v, (fr2.foldl
          (fun acc0 target =>
            (cl target).foldl
              (fun acc2 tn =>
                if tn = source then acc2
                else if acc2.1 tn = 0 then (upd1 acc2.1 tn (g + 1), acc2.2 ++ [tn])
                else acc2)
              acc0)
          acc).1 v =
        if v ≠ source ∧ acc.1 v = 0 ∧ ∃ t, t ∈ fr2 ∧ v ∈ cl t then g + 1
        else acc.1 v) ∧
      (∀ v, v ∈ (fr2.foldl
          (fun acc0 target =>
            (cl target).foldl
              (fun acc2 tn =>
                if tn = source then acc2
                else if acc2.1 tn = 0 then (upd1 acc2.1 tn (g + 1), acc2.2 ++ [tn])
                else acc2)
              acc0)
          acc).2 ↔
        (v ∈ acc.2 ∨ (v ≠ source ∧ acc.1 v = 0 ∧ ∃ t, t ∈ fr2 ∧ v ∈ cl t))) := by
    intro fr2
    induction fr2 with
    | nil =>
      intro acc
      constructor
      · intro v
        rw [List.foldl_nil, if_neg]
        rintro ⟨-, -, t, ht, -⟩
        exact List.not_mem_nil t ht
      · intro v
        rw [List.foldl_nil]
        constructor
        · exact fun h => Or.inl h
        · rintro (h | ⟨-, -, t, ht, -⟩)
          · exact h
          · exact absurd ht (List.not_mem_nil t)
    | cons t rest ih =>
      intro acc
      rw [List.foldl_cons]
      obtain ⟨er, em⟩ := expandInner_char source g (cl t) acc
      obtain ⟨ihr, ihm⟩ := ih ((cl t).foldl
        (fun acc2 tn =>
          if tn = source then acc2
          else if acc2.1 tn = 0 then (upd1 acc2.1 tn (g + 1), acc2.2 ++ [tn])
          else acc2) acc)
      constructor
      · intro v
        rw [ihr v, er v]
        by_cases hT : v ≠ source ∧ acc.1 v = 0 ∧ v ∈ cl t
        · rw [if_pos hT]
          rw [if_neg (fun hc => absurd hc.2.1 (by omega))]
          rw [if_pos ⟨hT.1, hT.2.1, t, List.mem_cons_self t rest, hT.2.2⟩]
        · rw [if_neg hT]
          by_cases hcond : v ≠ source ∧ acc.1 v = 0 ∧ ∃ t2, t2 ∈ rest ∧ v ∈ cl t2
          · rw [if_pos hcond, if_pos (by
              obtain ⟨t2, ht2, hv2⟩ := hcond.2.2
              exact ⟨hcond.1, hcond.2.1, t2, List.mem_cons_of_mem t ht2, hv2⟩)]
          · rw [if_neg hcond, if_neg (fun hc => by
              obtain ⟨hne, hz, t2, ht2, hv2⟩ := hc
              rcases List.mem_cons.mp ht2 with h2 | h2
              · exact hT ⟨hne, hz, h2 ▸ hv2⟩
              · exact hcond ⟨hne, hz, t2, h2, hv2⟩)]
      · intro v
        rw [ihm v, em v]
        by_cases hT : v ≠ source ∧ acc.1 v = 0 ∧ v ∈ cl t
        · constructor
          · intro _
            exact Or.inr ⟨hT.1, hT.2.1, t, List.mem_cons_self t rest, hT.2.2⟩
          · intro _
            exact Or.inl (Or.inr hT)
        · constructor
          · rintro ((h | h) | ⟨hne, hz, t2, ht2, hv2⟩)
            · exact Or.inl h
            · exact absurd h hT
            · rw [er v, if_neg hT] at hz
              exact Or.inr ⟨hne, hz, t2, List.mem_cons_of_mem t ht2, hv2⟩
          · rintro (h | ⟨hne, hz, t2, ht2, hv2⟩)
            · exact Or.inl (Or.inl h)
            · rcases List.mem_cons.mp ht2 with h2 | h2
              · exact absurd ⟨hne, hz, h2 ▸ hv2⟩ hT
              · refine Or.inr ⟨hne, ?_, t2, h2, hv2⟩
                rw [er v, if_neg hT]
                exact hz
  obtain ⟨h1, h2⟩ := key fr (row, [])
  constructor
  · exact fun v => h1 v
  · intro v
    rw [show (expandFrontier cl source g row fr).2 =
      (fr.foldl
        (fun acc0 target =>
          (cl target).foldl
            (fun acc2 tn =>
              if tn = source then acc2
              else if acc2.1 tn = 0 then (upd1 acc2.1 tn (g + 1), acc2.2 ++ [tn])
              else acc2)
            acc0)
        ((row, []) : (Nat → Nat) × List Nat)).2 from rfl]
    rw [h2 v]
    constructor
    · rintro (h | h)
      · exact absurd h (List.not_mem_nil v)
      · exact h
    · exact fun h => Or.inr h

end TrigridRole

namespace TrigridRole

/-- Pointwise description of the grad component of one pool step. -/
theorem poolStep_fst (cl : Nat → List Nat) (G : Nat)
    (acc : (Nat → Nat → Nat) × List (Nat × List Nat)) (sf : Nat × List Nat)
    (a : Nat) :
    (poolStep cl G acc sf).1 a =
      if a = sf.1 then (expandFrontier cl sf.1 G (acc.1 sf.1) sf.2).1
      else acc.1 a := by
  have heq : poolStep cl G acc sf =
      (if (expandFrontier cl sf.1 G (acc.1 sf.1) sf.2).2 = [] then
        ((fun a2 => if a2 = sf.1 then (expandFrontier cl sf.1 G (acc.1 sf.1) sf.2).1
          else acc.1 a2), acc.2)
      else
        ((fun a2 => if a2 = sf.1 then (expandFrontier cl sf.1 G (acc.1 sf.1) sf.2).1
          else acc.1 a2),
         acc.2 ++ [(sf.1, (expandFrontier cl sf.1 G (acc.1 sf.1) sf.2).2)])) := rfl
  rw [heq]
  split
  · rfl
  · rfl

/-- Description of the pool component of one pool step. -/
theorem poolStep_snd (cl : Nat → List Nat) (G : Nat)
    (acc : (Nat → Nat → Nat) × List (Nat × List Nat)) (sf : Nat × List Nat) :
    (poolStep cl G acc sf).2 =
      if (expandFrontier cl sf.1 G (acc.1 sf.1) sf.2).2 = [] then acc.2
      else acc.2 ++ [(sf.1, (expandFrontier cl sf.1 G (acc.1 sf.1) sf.2).2)] := by
  have heq : poolStep cl G acc sf =
      (if (expandFrontier cl sf.1 G (acc.1 sf.1) sf.2).2 = [] then
        ((fun a2 => if a2 = sf.1 then (expandFrontier cl sf.1 G (acc.1 sf.1) sf.2).1
          else acc.1 a2), acc.2)
      else
        ((fun a2 => if a2 = sf.1 then (expandFrontier cl sf.1 G (acc.1 sf.1) sf.2).1
          else acc.1 a2),
         acc.2 ++ [(sf.1, (expandFrontier cl sf.1 G (acc.1 sf.1) sf.2).2)])) := rfl
  rw [heq]
  split
  · rfl
  · rfl

/-- Grad part of one pool iteration: each processed source's row is
expanded from its own frontier and start row, all other rows are
untouched (source keys pairwise distinct). -/
theorem poolFold_grad (cl : Nat → List Nat) (G : Nat)
    (pl : List (Nat × List Nat)) (hnd : (pl.map Prod.fst).Nodup)
    (accG : Nat → Nat → Nat) (accP : List (Nat × List Nat)) :
    (∀ s, s ∉ pl.map Prod.fst →
      (pl.foldl (poolStep cl G) (accG, accP)).1 s = accG s) ∧
    (∀ sf, sf ∈ pl →
      (pl.foldl (poolStep cl G) (accG, accP)).1 sf.1 =
        (expandFrontier cl sf.1 G (accG sf.1) sf.2).1) := by
  induction pl generalizing accG accP with
  | nil =>
    constructor
    · intro s _
      rw [List.foldl_nil]
    · intro sf hsf
      exact absurd hsf (List.not_mem_nil sf)
  | cons sf0 rest ih =>
    rw [List.map_cons, List.nodup_cons] at hnd
    obtain ⟨hk0, hndr⟩ := hnd
    rw [List.foldl_cons]
    obtain ⟨iha, ihb⟩ := ih hndr (poolStep cl G (accG, accP) sf0).1
      (poolStep cl G (accG, accP) sf0).2
    rw [Prod.mk.eta] at iha ihb
    constructor
    · intro s hs
      rw [List.map_cons, List.mem_cons] at hs
      push_neg at hs
      rw [iha s hs.2, poolStep_fst, if_neg hs.1]
    · intro sf hsf
      rcases List.mem_cons.mp hsf with hsf | hsf
      · subst hsf
        rw [iha sf.1 hk0, poolStep_fst, if_pos rfl]
      · have hne : sf.1 ≠ sf0.1 := by
          intro hc
          exact hk0 (hc ▸ List.mem_map_of_mem Prod.fst hsf)
        rw [ihb sf hsf, poolStep_fst, if_neg hne]

/-- Pool part of one pool iteration: the new pool holds exactly the
sources whose frontier expansion (on their start row) was non-empty,
paired with that new frontier. -/
theorem poolFold_pool (cl : Nat → List Nat) (G : Nat)
    (pl : List (Nat × List Nat)) (hnd : (pl.map Prod.fst).Nodup)
    (accG : Nat → Nat → Nat) (accP : List (Nat × List Nat)) :
    ∀ e, e ∈ (pl.foldl (poolStep cl G) (accG, accP)).2 ↔
      (e ∈ accP ∨ ∃ fr, (e.1, fr) ∈ pl ∧
        (expandFrontier cl e.1 G (accG e.1) fr).2 = e.2 ∧ e.2 ≠ []) := by
  induction pl generalizing accG accP with
  | nil =>
    intro e
    rw [List.foldl_nil]
    constructor
    · exact fun h => Or.inl h
    · rintro (h | ⟨fr, hfr, -⟩)
      · exact h
      · exact absurd hfr (List.not_mem_nil _)
  | cons sf0 rest ih =>
    rw [List.map_cons, List.nodup_cons] at hnd
    obtain ⟨hk0, hndr⟩ := hnd
    intro e
    rw [List.foldl_cons]
    have ihe := ih hndr (poolStep cl G (accG, accP) sf0).1
      (poolStep cl G (accG, accP) sf0).2
    rw [Prod.mk.eta] at ihe
    rw [ihe e]
    obtain ⟨iha, -⟩ := poolFold_grad cl G rest hndr (poolStep cl G (accG, accP) sf0).1
      (poolStep cl G (accG, accP) sf0).2
    have hfst : ∀ s, s ≠ sf0.1 → (poolStep cl G (accG, accP) sf0).1 s = accG s := by
      intro s hs
      rw [poolStep_fst, if_neg hs]
    rw [poolStep_snd]
    by_cases hemp : (expandFrontier cl sf0.1 G (accG sf0.1) sf0.2).2 = []
    · rw [if_pos hemp]
      constructor
      · rintro (h | ⟨fr, hfr, hexp, hne⟩)
        · exact Or.inl h
        · have hke : e.1 ≠ sf0.1 := by
            intro hc
            have hm0 := List.mem_map_of_mem Prod.fst hfr
            have hm : e.1 ∈ List.map Prod.fst rest := hm0
            rw [hc] at hm
            exact hk0 hm
          rw [hfst e.1 hke] at hexp
          exact Or.inr ⟨fr, List.mem_cons_of_mem sf0 hfr, hexp, hne⟩
      · rintro (h | ⟨fr, hfr, hexp, hne⟩)
        · exact Or.inl h
        · rcases List.mem_cons.mp hfr with hfr | hfr
          · exfalso
            have h1 : e.1 = sf0.1 := by rw [← hfr]
            have h2 : fr = sf0.2 := by rw [← hfr]
            rw [h1, h2, hemp] at hexp
            exact hne hexp.symm
          · have hke : e.1 ≠ sf0.1 := by
              intro hc
              have hm0 := List.mem_map_of_mem Prod.fst hfr
              have hm : e.1 ∈ List.map Prod.fst rest := hm0
              rw [hc] at hm
              exact hk0 hm
            rw [← hfst e.1 hke] at hexp
            exact Or.inr ⟨fr, hfr, hexp, hne⟩
    · rw [if_neg hemp]
      constructor
      · rintro (h | ⟨fr, hfr, hexp, hne⟩)
        · rw [List.mem_append, List.mem_singleton] at h
          rcases h with h | h
          · exact Or.inl h
          · refine Or.inr ⟨sf0.2, ?_, ?_, ?_⟩
            · rw [show e.1 = sf0.1 from by rw [h]]
              exact List.mem_cons_self sf0 rest
            · rw [show e.1 = sf0.1 from by rw [h],
                show e.2 = (expandFrontier cl sf0.1 G (accG sf0.1) sf0.2).2 from by rw [h]]
            · rw [show e.2 = (expandFrontier cl sf0.1 G (accG sf0.1) sf0.2).2 from by rw [h]]
              exact hemp
        · have hke : e.1 ≠ sf0.1 := by
            intro hc
            have hm0 := List.mem_map_of_mem Prod.fst hfr
            have hm : e.1 ∈ List.map Prod.fst rest := hm0
            rw [hc] at hm
            exact hk0 hm
          rw [hfst e.1 hke] at hexp
          exact Or.inr ⟨fr, List.mem_cons_of_mem sf0 hfr, hexp, hne⟩
      · rintro (h | ⟨fr, hfr, hexp, hne⟩)
        · rw [List.mem_append]
          exact Or.inl (Or.inl h)
        · rcases List.mem_cons.mp hfr with hfr | hfr
          · rw [List.mem_append, List.mem_singleton]
            refine Or.inl (Or.inr ?_)
            have h1 : e.1 = sf0.1 := by rw [← hfr]
            have h2 : fr = sf0.2 := by rw [← hfr]
            rw [h1, h2] at hexp
            rw [Prod.ext_iff]
            exact ⟨h1, by rw [← hexp]⟩
          · have hke : e.1 ≠ sf0.1 := by
              intro hc
              have hm0 := List.mem_map_of_mem Prod.fst hfr
              have hm : e.1 ∈ List.map Prod.fst rest := hm0
              rw [hc] at hm
              exact hk0 hm
            rw [← hfst e.1 hke] at hexp
            exact Or.inr ⟨fr, hfr, hexp, hne⟩

end TrigridRole

namespace TrigridRole

/-! ## Bounded reachability -/

/-- One unfolding of the bounded-reachability recursion. -/
theorem reachInB_succ_iff {n : Nat} {conn : Nat → Nat → Bool} {s k v : Nat} :
    reachInB n conn s (k + 1) v = true ↔
      reachInB n conn s k v = true ∨
        ∃ u, u < n ∧ reachInB n conn s k u = true ∧ conn u v = true := by
  show (reachInB n conn s k v ||
      (List.range n).any (fun u => reachInB n conn s k u && conn u v)) = true ↔ _
  rw [Bool.or_eq_true, List.any_eq_true]
  constructor
  · rintro (h | ⟨u, hu, hp⟩)
    · exact Or.inl h
    · rw [Bool.and_eq_true] at hp
      exact Or.inr ⟨u, List.mem_range.mp hu, hp.1, hp.2⟩
  · rintro (h | ⟨u, hun, h1, h2⟩)
    · exact Or.inl h
    · refine Or.inr ⟨u, List.mem_range.mpr hun, ?_⟩
      rw [h1, h2]
      rfl

/-- Zero-hop reachability pins the node to the source. -/
theorem reachInB_zero_eq {n : Nat} {conn : Nat → Nat → Bool} {s v : Nat}
    (h : reachInB n conn s 0 v = true) : v = s := by
  have h2 : (v == s) = true := h
  exact eq_of_beq h2

/-- The source reaches itself within any number of hops. -/
theorem reachInB_self {n : Nat} {conn : Nat → Nat → Bool} {s : Nat} (k : Nat) :
    reachInB n conn s k s = true := by
  induction k with
  | zero =>
    show (s == s) = true
    exact beq_self_eq_true s
  | succ k ih =>
    rw [reachInB_succ_iff]
    exact Or.inl ih

/-- Reachability within `k` hops implies reachability within `k + 1`. -/
theorem reachInB_succ {n : Nat} {conn : Nat → Nat → Bool} {s k v : Nat}
    (h : reachInB n conn s k v = true) : reachInB n conn s (k + 1) v = true :=
  reachInB_succ_iff.mpr (Or.inl h)

/-- Bounded reachability is monotone in the hop bound. -/
theorem reachInB_mono {n : Nat} {conn : Nat → Nat → Bool} {s v : Nat}
    {k k' : Nat} (hk : k ≤ k') (h : reachInB n conn s k v = true) :
    reachInB n conn s k' v = true := by
  induction hk with
  | refl => exact h
  | step _ ih => exact reachInB_succ ih

/-- One more hop along an edge. -/
theorem reachInB_step {n : Nat} {conn : Nat → Nat → Bool} {s k u v : Nat}
    (hun : u < n) (hr : reachInB n conn s k u = true) (hc : conn u v = true) :
    reachInB n conn s (k + 1) v = true :=
  reachInB_succ_iff.mpr (Or.inr ⟨u, hun, hr, hc⟩)

/-! ## Properties of coordinate-generated adjacency -/

/-- No node is adjacent to itself. -/
theorem connFromCoords_irrefl (coords : List (Int × Int)) (i : Nat) :
    connFromCoords coords i i = false := by
  unfold connFromCoords
  cases h : coords.get? i with
  | none => rfl
  | some a => exact if_pos rfl

/-- Adjacency only relates indices into the coordinate list. -/
theorem connFromCoords_bnd (coords : List (Int × Int)) (i j : Nat)
    (h : connFromCoords coords i j = true) :
    i < coords.length ∧ j < coords.length := by
  unfold connFromCoords at h
  cases hi : coords.get? i with
  | none =>
    rw [hi] at h
    cases hj : coords.get? j with
    | none => rw [hj] at h; exact absurd h Bool.false_ne_true
    | some b => rw [hj] at h; exact absurd h Bool.false_ne_true
  | some a =>
    rw [hi] at h
    cases hj : coords.get? j with
    | none => rw [hj] at h; exact absurd h Bool.false_ne_true
    | some b =>
      constructor
      · obtain ⟨hl, -⟩ := List.get?_eq_some.mp hi
        exact hl
      · obtain ⟨hl, -⟩ := List.get?_eq_some.mp hj
        exact hl

/-- Reduced form of the adjacency test once both coordinates exist. -/
theorem connFromCoords_eq_of_get (coords : List (Int × Int)) (i j : Nat)
    (a b : Int × Int) (hi : coords.get? i = some a) (hj : coords.get? j = some b) :
    connFromCoords coords i j =
      if i = j then false
      else ((a.1 - b.1).natAbs + (a.2 - b.2).natAbs == 1) ||
        ((a.1 - b.1) * (a.2 - b.2) == -1) := by
  unfold connFromCoords
  rw [hi, hj]

/-- The generated adjacency is symmetric. -/
theorem connFromCoords_symm (coords : List (Int × Int)) (i j : Nat) :
    connFromCoords coords i j = connFromCoords coords j i := by
  cases hi : coords.get? i with
  | none =>
    cases hj : coords.get? j with
    | none => unfold connFromCoords; rw [hi, hj]
    | some b => unfold connFromCoords; rw [hi, hj]
  | some a =>
    cases hj : coords.get? j with
    | none => unfold connFromCoords; rw [hi, hj]
    | some b =>
      rw [connFromCoords_eq_of_get coords i j a b hi hj,
        connFromCoords_eq_of_get coords j i b a hj hi]
      by_cases hij : i = j
      · rw [if_pos hij, if_pos hij.symm]
      · rw [if_neg hij, if_neg (fun hc => hij hc.symm)]
        have h1 : a.1 - b.1 = -(b.1 - a.1) := by ring
        have h2 : a.2 - b.2 = -(b.2 - a.2) := by ring
        rw [h1, h2, Int.natAbs_neg, Int.natAbs_neg, neg_mul_neg]

end TrigridRole

namespace TrigridRole

/-- One frontier expansion preserves the active-source invariant, moving
the pool gradient from `g` to `g + 1` (lines 169-179: newly assigned cells
get value `g + 1` and become the new frontier). -/
theorem expandFrontier_actInv {n : Nat} {conn : Nat → Nat → Bool} {s g : Nat}
    {row : Nat → Nat} {fr : List Nat}
    (hbnd : ∀ u v, conn u v = true → u < n ∧ v < n)
    (hs : s < n) (hg : 1 ≤ g)
    (inv : ActInv n conn s g row fr) :
    ActInv n conn s (g + 1)
      (expandFrontier (connList n conn) s g row fr).1
      (expandFrontier (connList n conn) s g row fr).2 := by
  obtain ⟨er, em⟩ := expandFrontier_char (connList n conn) s g fr row
  refine ⟨?_, ?_, ?_, ?_, ?_, ?_⟩
  · rw [er s, if_neg]
    · exact inv.row_s
    · rintro ⟨hss, -, -⟩
      exact hss rfl
  · intro v h
    rw [er v] at h ⊢
    by_cases hC : v ≠ s ∧ row v = 0 ∧ ∃ t, t ∈ fr ∧ v ∈ connList n conn t
    · obtain ⟨hvs, hz, t, htf, hvcl⟩ := hC
      refine ⟨(connList_mem.mp hvcl).1, hvs, ?_⟩
      rw [if_pos ⟨hvs, hz, t, htf, hvcl⟩]
    · rw [if_neg hC] at h ⊢
      obtain ⟨h1, h2, h3⟩ := inv.bnd v h
      exact ⟨h1, h2, by omega⟩
  · intro v
    rw [em v]
    constructor
    · intro hC
      rw [er v, if_pos hC]
    · intro h
      by_cases hC : v ≠ s ∧ row v = 0 ∧ ∃ t, t ∈ fr ∧ v ∈ connList n conn t
      · exact hC
      · rw [er v, if_neg hC] at h
        have h0 : row v ≠ 0 := by omega
        have := (inv.bnd v h0).2.2
        omega
  · intro v h
    by_cases hC : v ≠ s ∧ row v = 0 ∧ ∃ t, t ∈ fr ∧ v ∈ connList n conn t
    · rw [er v, if_pos hC]
      obtain ⟨hvs, hz, t, htf, hvcl⟩ := hC
      have hrt : row t = g := (inv.fr_iff t).mp htf
      have ht0 : row t ≠ 0 := by omega
      have hrg : reachInB n conn s g t = true := by
        have := inv.sound t ht0
        rwa [hrt] at this
      obtain ⟨htn, -, -⟩ := inv.bnd t ht0
      obtain ⟨-, hconn2⟩ := connList_mem.mp hvcl
      exact reachInB_step htn hrg hconn2
    · rw [er v, if_neg hC] at h ⊢
      exact inv.sound v h
  · intro v k hr
    rw [er v]
    by_cases hC : v ≠ s ∧ row v = 0 ∧ ∃ t, t ∈ fr ∧ v ∈ connList n conn t
    · rw [if_pos hC]
      by_contra hlt
      have hk : k ≤ g := by omega
      have hrg : reachInB n conn s g v = true := reachInB_mono hk hr
      have := inv.compl v hC.1 hrg
      exact this hC.2.1
    · rw [if_neg hC]
      exact inv.minim v k hr
  · intro v hvs hr
    by_cases hC : v ≠ s ∧ row v = 0 ∧ ∃ t, t ∈ fr ∧ v ∈ connList n conn t
    · rw [er v, if_pos hC]
      omega
    · rw [er v, if_neg hC]
      rcases reachInB_succ_iff.mp hr with hr' | ⟨u, hun, hru, hcu⟩
      · exact inv.compl v hvs hr'
      · by_cases hus : u = s
        · rw [hus] at hcu
          have h1 : reachInB n conn s 1 v = true :=
            reachInB_step hs (reachInB_self 0) hcu
          exact inv.compl v hvs (reachInB_mono hg h1)
        · have hu0 : row u ≠ 0 := inv.compl u hus hru
          obtain ⟨hun2, -, hug2⟩ := inv.bnd u hu0
          by_cases hug : row u = g
          · intro h0
            apply hC
            refine ⟨hvs, h0, u, (inv.fr_iff u).mpr hug, ?_⟩
            exact connList_mem.mpr ⟨(hbnd u v hcu).2, hcu⟩
          · have hru2 : reachInB n conn s (g - 1) u = true :=
              reachInB_mono (by omega) (inv.sound u hu0)
            have hrv : reachInB n conn s (g - 1 + 1) v = true :=
              reachInB_step hun2 hru2 hcu
            rw [show g - 1 + 1 = g from by omega] at hrv
            exact inv.compl v hvs hrv

/-- When a source's frontier expansion comes back empty, its row is final:
the active invariant at an empty frontier yields the terminal invariant
(every reachable node, at any hop count, is already assigned). -/
theorem act_empty_termRow {n : Nat} {conn : Nat → Nat → Bool} {s g2 : Nat}
    {row : Nat → Nat}
    (hs : s < n) (hg : 1 ≤ g2) (hgn : g2 ≤ n)
    (inv : ActInv n conn s g2 row []) :
    TermRow n conn s row := by
  have key : ∀ m v, v ≠ s → reachInB n conn s (g2 + m) v = true → row v ≠ 0 := by
    intro m
    induction m with
    | zero =>
      intro v hvs hr
      exact inv.compl v hvs hr
    | succ m ih =>
      intro v hvs hr
      rcases reachInB_succ_iff.mp hr with hr' | ⟨u, hun, hru, hcu⟩
      · exact ih v hvs hr'
      · by_cases hus : u = s
        · rw [hus] at hcu
          have h1 : reachInB n conn s 1 v = true :=
            reachInB_step hs (reachInB_self 0) hcu
          exact ih v hvs (reachInB_mono (by omega) h1)
        · have hu0 : row u ≠ 0 := ih u hus hru
          obtain ⟨hun2, -, hug2⟩ := inv.bnd u hu0
          have hug : row u ≠ g2 := fun hc =>
            List.not_mem_nil u ((inv.fr_iff u).mpr hc)
          have hs2 : reachInB n conn s (g2 + m - 1) u = true :=
            reachInB_mono (by omega) (inv.sound u hu0)
          have hs3 := reachInB_step hun2 hs2 hcu
          rw [show g2 + m - 1 + 1 = g2 + m from by omega] at hs3
          exact ih v hvs hs3
  refine ⟨inv.row_s, ?_, inv.sound, inv.minim, ?_⟩
  · intro v h
    obtain ⟨a, b, c⟩ := inv.bnd v h
    exact ⟨a, b, le_trans c hgn⟩
  · intro v k hvs hr
    rcases le_or_lt k g2 with hk | hk
    · exact inv.compl v hvs (reachInB_mono hk hr)
    · exact key (k - g2) v hvs (by rwa [show g2 + (k - g2) = k from by omega])

/-- A source with no neighbours keeps an all-zero row, and that row is
final: no other node is reachable from it at all. -/
theorem isolated_termRow {n : Nat} {conn : Nat → Nat → Bool} {s : Nat}
    {row : Nat → Nat}
    (hnc : ∀ v, conn s v = false)
    (hz : ∀ v, row v = 0) :
    TermRow n conn s row := by
  have hnr : ∀ k v, v ≠ s → ¬ reachInB n conn s k v = true := by
    intro k
    induction k with
    | zero =>
      intro v hvs hr
      exact hvs (reachInB_zero_eq hr)
    | succ k ih =>
      intro v hvs hr
      rcases reachInB_succ_iff.mp hr with hr' | ⟨u, hun, hru, hcu⟩
      · exact ih v hvs hr'
      · by_cases hus : u = s
        · rw [hus] at hcu
          rw [hnc v] at hcu
          exact Bool.false_ne_true hcu
        · exact ih u hus hru
  refine ⟨hz s, ?_, ?_, ?_, ?_⟩
  · intro v h
    exact absurd (hz v) h
  · intro v h
    exact absurd (hz v) h
  · intro v k hr
    rw [hz v]
    exact Nat.zero_le k
  · intro v k hvs hr
    exact absurd hr (hnr k v hvs)

/-- If every level from 1 to `g` of a source's row is inhabited by a node
of the network other than the source, then `g ≤ n - 1` (the levels name
pairwise-distinct nodes). -/
theorem levels_bound {n : Nat} (s g : Nat) (row : Nat → Nat) (hs : s < n)
    (hlev : ∀ gg, 1 ≤ gg → gg ≤ g → ∃ v, v < n ∧ v ≠ s ∧ row v = gg) :
    g ≤ n - 1 := by
  classical
  have h1 : (Finset.Icc 1 g).card ≤ ((Finset.range n).erase s).card := by
    apply Finset.card_le_card_of_injOn
      (fun gg => if h : 1 ≤ gg ∧ gg ≤ g then (hlev gg h.1 h.2).choose else 0)
    · intro gg hgg
      rw [Finset.mem_Icc] at hgg
      rw [dif_pos hgg]
      obtain ⟨ha, hb, -⟩ := (hlev gg hgg.1 hgg.2).choose_spec
      rw [Finset.mem_erase, Finset.mem_range]
      exact ⟨hb, ha⟩
    · intro a ha b hb hab
      rw [Finset.mem_coe, Finset.mem_Icc] at ha hb
      have hab2 : (if h : 1 ≤ a ∧ a ≤ g then (hlev a h.1 h.2).choose else 0) =
          (if h : 1 ≤ b ∧ b ≤ g then (hlev b h.1 h.2).choose else 0) := hab
      rw [dif_pos ha, dif_pos hb] at hab2
      obtain ⟨-, -, hca⟩ := (hlev a ha.1 ha.2).choose_spec
      obtain ⟨-, -, hcb⟩ := (hlev b hb.1 hb.2).choose_spec
      rw [hab2] at hca
      exact hca.symm.trans hcb
  rw [Nat.card_Icc, Finset.card_erase_of_mem (Finset.mem_range.mpr hs),
    Finset.card_range] at h1
  omega

/-- The initial state of the gradient construction (lines 160-165)
satisfies the active-source invariant at pool gradient 1: direct
neighbours hold value 1 and form the frontier. -/
theorem gradInit_act {n : Nat} {conn : Nat → Nat → Bool}
    (hirr : ∀ u, conn u u = false)
    (hbnd : ∀ u v, conn u v = true → u < n ∧ v < n)
    (i : Nat) (hi : i < n) :
    ActInv n conn i 1 ((gradInit n conn).grad i) (connList n conn i) := by
  have hrow : ∀ j, (gradInit n conn).grad i j = if conn i j = true then 1 else 0 :=
    fun j => rfl
  refine ⟨?_, ?_, ?_, ?_, ?_, ?_⟩
  · rw [hrow i, if_neg]
    rw [hirr i]
    exact Bool.false_ne_true
  · intro v h
    rw [hrow v] at h ⊢
    by_cases hc : conn i v = true
    · refine ⟨(hbnd i v hc).2, fun hvi => ?_, ?_⟩
      · rw [hvi, hirr i] at hc
        exact Bool.false_ne_true hc
      · rw [if_pos hc]
    · rw [if_neg hc] at h
      exact absurd rfl h
  · intro v
    rw [connList_mem, hrow v]
    constructor
    · rintro ⟨hvn, hcv⟩
      rw [if_pos hcv]
    · intro h
      by_cases hc : conn i v = true
      · exact ⟨(hbnd i v hc).2, hc⟩
      · rw [if_neg hc] at h
        exact absurd h (by decide)
  · intro v h
    rw [hrow v] at h ⊢
    by_cases hc : conn i v = true
    · rw [if_pos hc]
      exact reachInB_step hi (reachInB_self 0) hc
    · rw [if_neg hc] at h
      exact absurd rfl h
  · intro v k hr
    rw [hrow v]
    by_cases hc : conn i v = true
    · rw [if_pos hc]
      cases k with
      | zero =>
        have hvi : v = i := reachInB_zero_eq hr
        rw [hvi, hirr i] at hc
        exact absurd hc Bool.false_ne_true
      | succ k => omega
    · rw [if_neg hc]
      exact Nat.zero_le k
  · intro v hvs hr
    rw [hrow v]
    rcases reachInB_succ_iff.mp hr with hr' | ⟨u, hun, hru, hcu⟩
    · exact absurd (reachInB_zero_eq hr') hvs
    · have hui : u = i := reachInB_zero_eq hru
      rw [hui] at hcu
      rw [if_pos hcu]
      exact Nat.one_ne_zero

end TrigridRole

namespace TrigridRole

/-- The keys of the pool rebuilt by one pool iteration form a sublist of
the accumulator's keys followed by the processed keys. -/
theorem poolFold_keys_sublist (cl : Nat → List Nat) (G : Nat)
    (pl : List (Nat × List Nat)) (accG : Nat → Nat → Nat)
    (accP : List (Nat × List Nat)) :
    ((pl.foldl (poolStep cl G) (accG, accP)).2.map Prod.fst).Sublist
      (accP.map Prod.fst ++ pl.map Prod.fst) := by
  induction pl generalizing accG accP with
  | nil =>
    rw [List.foldl_nil, List.map_nil, List.append_nil]
  | cons sf0 rest ih =>
    rw [List.foldl_cons]
    have h1 := ih (poolStep cl G (accG, accP) sf0).1 (poolStep cl G (accG, accP) sf0).2
    rw [Prod.mk.eta] at h1
    refine h1.trans ?_
    rw [poolStep_snd, List.map_cons]
    by_cases hemp : (expandFrontier cl sf0.1 G (accG sf0.1) sf0.2).2 = []
    · rw [if_pos hemp]
      exact List.Sublist.append_left (List.Sublist.cons _ (List.Sublist.refl _)) _
    · rw [if_neg hemp, List.map_append, List.append_assoc]
      refine List.Sublist.append_left ?_ _
      rw [show (List.map Prod.fst
          [(sf0.1, (expandFrontier cl sf0.1 G (accG sf0.1) sf0.2).2)]) = [sf0.1]
        from rfl, List.singleton_append]

/-- While the pool is non-empty the pool gradient stays below the network
size: the inhabited levels of any active source name distinct nodes. -/
theorem poolInv_g_bound {n : Nat} {conn : Nat → Nat → Bool} {st : PoolSt}
    (inv : PoolInv n conn st) (hne : st.pool ≠ []) :
    st.g ≤ n - 1 ∧ 1 ≤ n := by
  obtain ⟨sf, hsf⟩ := List.exists_mem_of_ne_nil st.pool hne
  have h1 := levels_bound sf.1 st.g (st.grad sf.1) (inv.keylt sf hsf) (inv.lev sf hsf)
  have h2 := inv.keylt sf hsf
  exact ⟨h1, by omega⟩

/-- One pool iteration establishes the pool invariant, given the
invariant's ingredients before the iteration and finality of the rows of
the sources the iteration drops. -/
theorem poolBody_poolInv_of {n : Nat} {conn : Nat → Nat → Bool}
    (hbnd : ∀ u v, conn u v = true → u < n ∧ v < n)
    (st : PoolSt)
    (hgpos : 1 ≤ st.g)
    (hnodup : (st.pool.map Prod.fst).Nodup)
    (hkeylt : ∀ sf, sf ∈ st.pool → sf.1 < n)
    (hact : ∀ sf, sf ∈ st.pool → ActInv n conn sf.1 st.g (st.grad sf.1) sf.2)
    (hlev : ∀ sf, sf ∈ st.pool → sf.2 ≠ [] → ∀ gg, 1 ≤ gg → gg ≤ st.g →
      ∃ v, v < n ∧ v ≠ sf.1 ∧ st.grad sf.1 v = gg)
    (hterm : ∀ s, s < n → s ∉ st.pool.map Prod.fst → TermRow n conn s (st.grad s))
    (hdrop : ∀ sf, sf ∈ st.pool →
      (expandFrontier (connList n conn) sf.1 st.g (st.grad sf.1) sf.2).2 = [] →
      TermRow n conn sf.1
        ((expandFrontier (connList n conn) sf.1 st.g (st.grad sf.1) sf.2).1)) :
    PoolInv n conn (poolBody (connList n conn) st) := by
  obtain ⟨hGn, hGm⟩ := poolFold_grad (connList n conn) st.g st.pool hnodup st.grad []
  have hP := poolFold_pool (connList n conn) st.g st.pool hnodup st.grad []
  have hpool : (poolBody (connList n conn) st).pool =
      (st.pool.foldl (poolStep (connList n conn) st.g) (st.grad, [])).2 := rfl
  have hgg : (poolBody (connList n conn) st).g = st.g + 1 := rfl
  have hPm : ∀ e : Nat × List Nat, e ∈ (poolBody (connList n conn) st).pool ↔
      ∃ fr, (e.1, fr) ∈ st.pool ∧
        (expandFrontier (connList n conn) e.1 st.g (st.grad e.1) fr).2 = e.2 ∧
        e.2 ≠ [] := by
    intro e
    rw [hpool, hP e]
    constructor
    · rintro (h | h)
      · exact absurd h (List.not_mem_nil e)
      · exact h
    · exact fun h => Or.inr h
  refine ⟨?_, ?_, ?_, ?_, ?_, ?_, ?_⟩
  · rw [hgg]; omega
  · rw [hpool]
    have h5 := poolFold_keys_sublist (connList n conn) st.g st.pool st.grad []
    rw [List.map_nil, List.nil_append] at h5
    exact List.Nodup.sublist h5 hnodup
  · intro e he
    obtain ⟨fr, hmem, -, -⟩ := (hPm e).mp he
    exact hkeylt (e.1, fr) hmem
  · intro e he
    obtain ⟨-, -, -, hne2⟩ := (hPm e).mp he
    exact hne2
  · intro e he
    obtain ⟨fr, hmem, hexp, hne2⟩ := (hPm e).mp he
    have hainv : ActInv n conn e.1 st.g (st.grad e.1) fr := hact (e.1, fr) hmem
    have hkl : e.1 < n := hkeylt (e.1, fr) hmem
    have h3 : (poolBody (connList n conn) st).grad e.1 =
        (expandFrontier (connList n conn) e.1 st.g (st.grad e.1) fr).1 :=
      hGm (e.1, fr) hmem
    have h2 := expandFrontier_actInv hbnd hkl hgpos hainv
    rw [hgg, h3, ← hexp]
    exact h2
  · intro e he gg h1g hgle
    obtain ⟨fr, hmem, hexp, hne2⟩ := (hPm e).mp he
    have hfrne : fr ≠ [] := by
      intro hc
      apply hne2
      rw [← hexp, hc]
      rfl
    have hainv : ActInv n conn e.1 st.g (st.grad e.1) fr := hact (e.1, fr) hmem
    have hkl : e.1 < n := hkeylt (e.1, fr) hmem
    have h3 : (poolBody (connList n conn) st).grad e.1 =
        (expandFrontier (connList n conn) e.1 st.g (st.grad e.1) fr).1 :=
      hGm (e.1, fr) hmem
    rw [hgg] at hgle
    by_cases hggle : gg ≤ st.g
    · obtain ⟨v, hvn, hvs, hval⟩ := hlev (e.1, fr) hmem hfrne gg h1g hggle
      have hval2 : st.grad e.1 v = gg := hval
      have hvs2 : v ≠ e.1 := hvs
      refine ⟨v, hvn, hvs2, ?_⟩
      rw [h3]
      obtain ⟨er, -⟩ := expandFrontier_char (connList n conn) e.1 st.g fr (st.grad e.1)
      rw [er v, if_neg]
      · exact hval2
      · rintro ⟨-, hz, -⟩
        omega
    · have hgg2 : gg = st.g + 1 := by omega
      have h2 := expandFrontier_actInv hbnd hkl hgpos hainv
      obtain ⟨w, hw⟩ := List.exists_mem_of_ne_nil e.2 hne2
      rw [← hexp] at hw
      have hw2 : (expandFrontier (connList n conn) e.1 st.g (st.grad e.1) fr).1 w =
          st.g + 1 := (h2.fr_iff w).mp hw
      have hw0 : (expandFrontier (connList n conn) e.1 st.g (st.grad e.1) fr).1 w ≠ 0 := by
        omega
      obtain ⟨hwn, hws, -⟩ := h2.bnd w hw0
      refine ⟨w, hwn, hws, ?_⟩
      rw [h3, hgg2]
      exact hw2
  · intro s hs hnotin
    by_cases hin : s ∈ st.pool.map Prod.fst
    · obtain ⟨sf, hsf, hfst⟩ := List.mem_map.mp hin
      have hsf2 : (s, sf.2) ∈ st.pool := by
        rw [← hfst, Prod.mk.eta]
        exact hsf
      have hemp : (expandFrontier (connList n conn) s st.g (st.grad s) sf.2).2 = [] := by
        by_contra hne2
        apply hnotin
        refine List.mem_map.mpr
          ⟨(s, (expandFrontier (connList n conn) s st.g (st.grad s) sf.2).2), ?_, rfl⟩
        rw [hPm]
        exact ⟨sf.2, hsf2, rfl, hne2⟩
      have h3 : (poolBody (connList n conn) st).grad s =
          (expandFrontier (connList n conn) s st.g (st.grad s) sf.2).1 :=
        hGm (s, sf.2) hsf2
      rw [h3]
      exact hdrop (s, sf.2) hsf2 hemp
    · have h4 : (poolBody (connList n conn) st).grad s = st.grad s := hGn s hin
      rw [h4]
      exact hterm s hs hin

/-- One pool iteration preserves the pool invariant. -/
theorem poolBody_poolInv {n : Nat} {conn : Nat → Nat → Bool}
    (hbnd : ∀ u v, conn u v = true → u < n ∧ v < n)
    (st : PoolSt) (inv : PoolInv n conn st) :
    PoolInv n conn (poolBody (connList n conn) st) := by
  refine poolBody_poolInv_of hbnd st inv.gpos inv.nodup inv.keylt inv.act
    (fun sf hm _ => inv.lev sf hm) inv.term ?_
  intro sf hsf hemp
  have hne : st.pool ≠ [] := by
    intro hc
    rw [hc] at hsf
    exact List.not_mem_nil sf hsf
  obtain ⟨hb1, hb2⟩ := poolInv_g_bound inv hne
  have h2 := expandFrontier_actInv hbnd (inv.keylt sf hsf) inv.gpos (inv.act sf hsf)
  rw [hemp] at h2
  exact act_empty_termRow (inv.keylt sf hsf) (by omega) (by omega) h2

end TrigridRole

namespace TrigridRole

/-- After the first pool iteration the pool invariant holds: initial
frontiers satisfy the active invariant at pool gradient 1, and a source
dropped immediately either had no neighbours (all-zero final row) or a
non-empty level 1 certifying `2 ≤ n`. -/
theorem gradInit_poolInv {n : Nat} {conn : Nat → Nat → Bool}
    (hirr : ∀ u, conn u u = false)
    (hbnd : ∀ u v, conn u v = true → u < n ∧ v < n) :
    PoolInv n conn (poolBody (connList n conn) (gradInit n conn)) := by
  have hkeys : (gradInit n conn).pool.map Prod.fst = List.range n := by
    show ((List.range n).map (fun i => (i, connList n conn i))).map Prod.fst =
      List.range n
    rw [List.map_map]
    exact List.map_id _
  have hmem0 : ∀ sf : Nat × List Nat, sf ∈ (gradInit n conn).pool ↔
      ∃ i, i < n ∧ sf = (i, connList n conn i) := by
    intro sf
    show sf ∈ (List.range n).map (fun i => (i, connList n conn i)) ↔ _
    rw [List.mem_map]
    constructor
    · rintro ⟨i, hi, hsf⟩
      exact ⟨i, List.mem_range.mp hi, hsf.symm⟩
    · rintro ⟨i, hi, hsf⟩
      exact ⟨i, List.mem_range.mpr hi, hsf.symm⟩
  refine poolBody_poolInv_of hbnd (gradInit n conn) (le_refl 1) ?_ ?_ ?_ ?_ ?_ ?_
  · rw [hkeys]
    exact List.nodup_range n
  · intro sf hsf
    obtain ⟨i, hi, hsf2⟩ := (hmem0 sf).mp hsf
    rw [hsf2]
    exact hi
  · intro sf hsf
    obtain ⟨i, hi, hsf2⟩ := (hmem0 sf).mp hsf
    rw [hsf2]
    exact gradInit_act hirr hbnd i hi
  · intro sf hsf hfne gg h1g hgle
    obtain ⟨i, hi, hsf2⟩ := (hmem0 sf).mp hsf
    have hg1 : (gradInit n conn).g = 1 := rfl
    have hgg1 : gg = 1 := by omega
    subst hgg1
    subst hsf2
    have hfne2 : connList n conn i ≠ [] := hfne
    obtain ⟨w, hw⟩ := List.exists_mem_of_ne_nil _ hfne2
    obtain ⟨hwn, hcw⟩ := connList_mem.mp hw
    refine ⟨w, hwn, ?_, ?_⟩
    · intro hwi
      have hwi2 : w = i := hwi
      rw [hwi2, hirr i] at hcw
      exact Bool.false_ne_true hcw
    · show (if conn i w = true then 1 else 0) = 1
      rw [if_pos hcw]
  · intro s hs hnot
    rw [hkeys] at hnot
    exact absurd (List.mem_range.mpr hs) hnot
  · intro sf hsf hemp
    obtain ⟨i, hi, hsf2⟩ := (hmem0 sf).mp hsf
    subst hsf2
    by_cases hcl : connList n conn i = []
    · have hnc : ∀ v, conn i v = false := by
        intro v
        rcases Bool.eq_false_or_eq_true (conn i v) with h | h
        · exfalso
          have hv : v ∈ connList n conn i := connList_mem.mpr ⟨(hbnd i v h).2, h⟩
          rw [hcl] at hv
          exact List.not_mem_nil v hv
        · exact h
      refine isolated_termRow hnc ?_
      intro v
      show (expandFrontier (connList n conn) i 1 ((gradInit n conn).grad i)
        (connList n conn i)).1 v = 0
      obtain ⟨er, -⟩ := expandFrontier_char (connList n conn) i 1
        (connList n conn i) ((gradInit n conn).grad i)
      rw [er v, if_neg]
      · show (if conn i v = true then 1 else 0) = 0
        rw [hnc v]
        rfl
      · rintro ⟨-, -, t, ht, -⟩
        rw [hcl] at ht
        exact List.not_mem_nil t ht
    · obtain ⟨w, hw⟩ := List.exists_mem_of_ne_nil _ hcl
      obtain ⟨hwn, hcw⟩ := connList_mem.mp hw
      have hwi : w ≠ i := by
        intro hc
        rw [hc, hirr i] at hcw
        exact Bool.false_ne_true hcw
      have hlev1 : ∀ gg, 1 ≤ gg → gg ≤ 1 →
          ∃ v, v < n ∧ v ≠ i ∧ (gradInit n conn).grad i v = gg := by
        intro gg h1 h2
        have hgg1 : gg = 1 := by omega
        subst hgg1
        refine ⟨w, hwn, hwi, ?_⟩
        show (if conn i w = true then 1 else 0) = 1
        rw [if_pos hcw]
      have hb := levels_bound i 1 ((gradInit n conn).grad i) hi hlev1
      have h2 := expandFrontier_actInv hbnd hi (le_refl 1) (gradInit_act hirr hbnd i hi)
      have hemp2 : (expandFrontier (connList n conn) i 1 ((gradInit n conn).grad i)
          (connList n conn i)).2 = [] := hemp
      rw [hemp2] at h2
      exact act_empty_termRow hi (by omega) (by omega) h2

/-- The gradient loop empties the pool within the available fuel and keeps
the pool invariant. -/
theorem gradLoop_poolInv {n : Nat} {conn : Nat → Nat → Bool}
    (hbnd : ∀ u v, conn u v = true → u < n ∧ v < n) :
    ∀ (fuel : Nat) (st : PoolSt), PoolInv n conn st → n ≤ st.g + fuel →
      (gradLoop (connList n conn) fuel st).pool = [] ∧
        PoolInv n conn (gradLoop (connList n conn) fuel st) := by
  intro fuel
  induction fuel with
  | zero =>
    intro st inv hn
    constructor
    · show st.pool = []
      by_contra hne
      obtain ⟨h1, h2⟩ := poolInv_g_bound inv hne
      omega
    · exact inv
  | succ fuel ih =>
    intro st inv hn
    have hunf : gradLoop (connList n conn) (fuel + 1) st =
        if st.pool = [] then st
        else gradLoop (connList n conn) fuel (poolBody (connList n conn) st) := rfl
    by_cases hp : st.pool = []
    · rw [hunf, if_pos hp]
      exact ⟨hp, inv⟩
    · rw [hunf, if_neg hp]
      refine ih (poolBody (connList n conn) st) (poolBody_poolInv hbnd st inv) ?_
      have hg : (poolBody (connList n conn) st).g = st.g + 1 := rfl
      omega

/-- The precomputed gradient rows are final: for every source of the
network the row produced by lines 160-182 assigns correct, minimal hop
counts and covers every reachable node. -/
theorem gradients_termRow {n : Nat} {conn : Nat → Nat → Bool}
    (hirr : ∀ u, conn u u = false)
    (hbnd : ∀ u v, conn u v = true → u < n ∧ v < n) :
    ∀ s, s < n → TermRow n conn s (gradients n conn s) := by
  intro s hs
  obtain ⟨m, hm⟩ : ∃ m, n = m + 1 := ⟨n - 1, by omega⟩
  have hpne : (gradInit n conn).pool ≠ [] := by
    intro hc
    have hmem : s ∈ (gradInit n conn).pool.map Prod.fst := by
      have hkeys : (gradInit n conn).pool.map Prod.fst = List.range n := by
        show ((List.range n).map (fun i => (i, connList n conn i))).map Prod.fst =
          List.range n
        rw [List.map_map]
        exact List.map_id _
      rw [hkeys]
      exact List.mem_range.mpr hs
    rw [hc, List.map_nil] at hmem
    exact List.not_mem_nil s hmem
  have hswap : gradLoop (connList n conn) n (gradInit n conn) =
      gradLoop (connList n conn) (m + 1) (gradInit n conn) := by
    rw [← hm]
  have hunf : gradLoop (connList n conn) (m + 1) (gradInit n conn) =
      if (gradInit n conn).pool = [] then gradInit n conn
      else gradLoop (connList n conn) m (poolBody (connList n conn) (gradInit n conn)) :=
    rfl
  have hinv1 := gradInit_poolInv hirr hbnd
  have hg1 : (poolBody (connList n conn) (gradInit n conn)).g = 2 := rfl
  obtain ⟨hfin_pool, hfin_inv⟩ :=
    gradLoop_poolInv hbnd m (poolBody (connList n conn) (gradInit n conn)) hinv1
      (by omega)
  have hterm := hfin_inv.term s hs (by
    rw [hfin_pool, List.map_nil]
    exact List.not_mem_nil s)
  show TermRow n conn s ((gradLoop (connList n conn) n (gradInit n conn)).grad s)
  rw [hswap, hunf, if_neg hpne]
  exact hterm

end TrigridRole

namespace TrigridRole

/-- Any node of the network reaches itself or, via completeness of the
final row, carries a correct hop count: a reach certificate at its own
gradient value. -/
theorem gradients_reach_self {n : Nat} {conn : Nat → Nat → Bool}
    (hirr : ∀ u, conn u u = false)
    (hbnd : ∀ u v, conn u v = true → u < n ∧ v < n)
    (hconn : ConnectedB n conn)
    (s : Nat) (hs : s < n) (w : Nat) (hw : w < n) :
    reachInB n conn s (gradients n conn s w) w = true := by
  have T := gradients_termRow hirr hbnd s hs
  by_cases hws : w = s
  · rw [hws, T.row_s]
    exact reachInB_self 0
  · have h0 : gradients n conn s w ≠ 0 := T.compl w n hws (hconn s hs w hw)
    exact T.sound w h0

/-- C3.  The precomputed gradient map (lines 160-182) is BFS hop-distance:
for every source `s` of a connected network, `gradient(s,s) = 0`; for every
other node the gradient value is a hop count that reaches the node and is
minimal among all hop counts that do; and across every edge the gradient
for any source changes by at most 1. -/
theorem gradient_is_bfs_distance (n : Nat) (conn : Nat → Nat → Bool)
    (hsym : ∀ u v, conn u v = conn v u)
    (hirr : ∀ u, conn u u = false)
    (hbnd : ∀ u v, conn u v = true → u < n ∧ v < n)
    (hconn : ConnectedB n conn) :
    (∀ s, s < n → gradients n conn s s = 0) ∧
    (∀ s v, s < n → v < n → v ≠ s →
      reachInB n conn s (gradients n conn s v) v = true ∧
        ∀ k, reachInB n conn s k v = true → gradients n conn s v ≤ k) ∧
    (∀ s v m, s < n → v < n → conn v m = true →
      ((gradients n conn s v : Int) - (gradients n conn s m : Int)).natAbs ≤ 1) := by
  refine ⟨?_, ?_, ?_⟩
  · intro s hs
    exact (gradients_termRow hirr hbnd s hs).row_s
  · intro s v hs hv hvs
    have T := gradients_termRow hirr hbnd s hs
    have h0 : gradients n conn s v ≠ 0 := T.compl v n hvs (hconn s hs v hv)
    exact ⟨T.sound v h0, fun k hk => T.minim v k hk⟩
  · intro s v m hs hv hcm
    have T := gradients_termRow hirr hbnd s hs
    have hm : m < n := (hbnd v m hcm).2
    have hcm2 : conn m v = true := by
      rw [← hsym v m]
      exact hcm
    have h1 : gradients n conn s m ≤ gradients n conn s v + 1 :=
      T.minim m _ (reachInB_step hv (gradients_reach_self hirr hbnd hconn s hs v hv) hcm)
    have h2 : gradients n conn s v ≤ gradients n conn s m + 1 :=
      T.minim v _ (reachInB_step hm (gradients_reach_self hirr hbnd hconn s hs m hm) hcm2)
    omega

/-- Witness for C3 on the connected 3-node triangle `tCoords`: the
hypotheses hold and the source-cell conclusion evaluates. -/
theorem gradient_is_bfs_distance_witness :
    ConnectedB 3 tConn ∧ gradients 3 tConn 0 0 = 0 := by
  have hco : ConnectedB 3 tConn := by
    unfold ConnectedB
    decide
  exact ⟨hco,
    (gradient_is_bfs_distance 3 tConn
      (fun u v => connFromCoords_symm tCoords u v)
      (fun u => connFromCoords_irrefl tCoords u)
      (fun u v h => connFromCoords_bnd tCoords u v h) hco).1 0 (by decide)⟩

end TrigridRole

namespace TrigridRole

/-- C8 (amended).  There is no connectivity check and no
`DisconnectedGraphError` anywhere in the program: on a disconnected input
the gradient construction (lines 160-182) terminates normally and simply
leaves gradient 0 for every node unreachable from a source, and the
protocol's rounds start and run on that incomplete gradient map. -/
theorem unreachable_gradient_zero (n : Nat) (conn : Nat → Nat → Bool)
    (s v : Nat)
    (hirr : ∀ u, conn u u = false)
    (hbnd : ∀ u v2, conn u v2 = true → u < n ∧ v2 < n)
    (hs : s < n)
    (hun : ¬ reachInB n conn s n v = true) :
    gradients n conn s v = 0 := by
  by_contra h0
  have T := gradients_termRow hirr hbnd s hs
  obtain ⟨hvn, hvs, hle⟩ := T.bnd v h0
  exact hun (reachInB_mono hle (T.sound v h0))

/-- Witness for C8 (amended) on the disconnected two-node input `dCoords`:
node 1 is unreachable from node 0 and its gradient is 0. -/
theorem unreachable_gradient_zero_witness :
    (¬ reachInB 2 dConn 0 2 1 = true) ∧ gradients 2 dConn 0 1 = 0 :=
  ⟨by decide,
   unreachable_gradient_zero 2 dConn 0 1
     (fun u => connFromCoords_irrefl dCoords u)
     (fun u v h => connFromCoords_bnd dCoords u v h)
     (by decide) (by decide)⟩

/-- C8 (counterexample to the claimed startup failure).  On the
disconnected two-node input the nodes are not adjacent and node 1 is
unreachable from node 0, yet no failure of any kind occurs before or
during the rounds: the gradient of the unreachable pair is silently 0,
and three full rounds complete normally (`some` state) without global
convergence — the program keeps looping instead of aborting. -/
theorem no_disconnect_check_counterexample :
    dConn 0 1 = false ∧
    (¬ reachInB 2 dConn 0 2 1 = true) ∧
    gradients 2 dConn 0 1 = 0 ∧
    ((progRun 2 dConn dPref 3).map (allConv 2)) = some false := by
  refine ⟨by decide, by decide, by decide, by decide⟩

end TrigridRole

namespace TrigridRole

/-- Membership in a forwarding list (lines 193-201): exactly the
neighbours one gradient level above the node, for the given source. -/
theorem neighborsSend_mem (n : Nat) (conn : Nat → Nat → Bool) (s j nb : Nat) :
    nb ∈ neighborsSend n conn s j ↔
      nb < n ∧ conn j nb = true ∧
        gradients n conn s nb = gradients n conn s j + 1 := by
  unfold neighborsSend
  rw [List.mem_filter, connList_mem]
  constructor
  · rintro ⟨⟨h1, h2⟩, h3⟩
    refine ⟨h1, h2, ?_⟩
    rw [beq_iff_eq] at h3
    omega
  · rintro ⟨h1, h2, h3⟩
    refine ⟨⟨h1, h2⟩, ?_⟩
    rw [beq_iff_eq]
    omega

/-- A direct neighbour of a source sits at gradient exactly 1. -/
theorem grad_one_of_conn {n : Nat} {conn : Nat → Nat → Bool}
    (hirr : ∀ u, conn u u = false)
    (hbnd : ∀ u v, conn u v = true → u < n ∧ v < n)
    {s v : Nat} (hs : s < n) (hc : conn s v = true) :
    gradients n conn s v = 1 := by
  have T := gradients_termRow hirr hbnd s hs
  have hvs : v ≠ s := by
    intro hv
    rw [hv, hirr s] at hc
    exact Bool.false_ne_true hc
  have h1 : reachInB n conn s 1 v = true :=
    reachInB_step hs (reachInB_self 0) hc
  have h2 := T.compl v 1 hvs h1
  have h3 := T.minim v 1 h1
  omega

/-- Every message of the pre-loop broadcast (lines 231-236) is the initial
claim of some node, delivered to one of that node's direct neighbours. -/
theorem initRx_source {n : Nat} (conn : Nat → Nat → Bool) (pref : Nat → Nat → ℚ)
    (m : Message) (v : Nat)
    (hm : m ∈ initRx n (connList n conn) pref v) :
    ∃ s, s < n ∧ m = initMsg n pref s ∧ v ∈ connList n conn s := by
  unfold initRx at hm
  rw [rxOuterFold_eq] at hm
  rw [List.nil_append] at hm
  rw [List.mem_flatten] at hm
  obtain ⟨l, hl, hml⟩ := hm
  rw [List.mem_map] at hl
  obtain ⟨s, hsr, hls⟩ := hl
  rw [← hls] at hml
  rw [List.mem_replicate] at hml
  obtain ⟨hcnt, hmm⟩ := hml
  refine ⟨s, List.mem_range.mp hsr, hmm, ?_⟩
  by_contra hv
  exact hcnt (List.count_eq_zero.mpr hv)

/-- Receive-buffer content of one transmission step: the step appends one
copy of the transmitter's stored entry for `src` per occurrence of the
target in `neighbors_send[src][tr]`, when the flag is up. -/
theorem transmitOne_rx (nsend : Nat → Nat → List Nat) (tr : Nat) (s2 : SysState)
    (src : Nat) (v : Nat) :
    (transmitOne nsend tr s2 src).rx v =
      s2.rx v ++
        (if s2.tflag tr src = true then
          List.replicate ((nsend src tr).count v)
            ⟨src, (s2.lra tr src).role, (s2.lra tr src).prob, (s2.lra tr src).ts⟩
         else []) := by
  unfold transmitOne
  by_cases h : s2.tflag tr src = true
  · rw [if_pos h, if_pos h]
    exact rxInnerFold_eq _ _ _ _
  · rw [if_neg h, if_neg h, List.append_nil]

/-- Any message found in a buffer after the per-transmitter loop either
was there before or is addressed to a member of
`neighbors_send[its source][the transmitter]`. -/
theorem transmitFold_rx_source (nsend : Nat → Nat → List Nat) (tr : Nat)
    (ls : List Nat) (s2 : SysState) (v : Nat) (m : Message)
    (h : m ∈ (ls.foldl (transmitOne nsend tr) s2).rx v) :
    m ∈ s2.rx v ∨ ∃ src, v ∈ nsend src tr ∧ m.source = src := by
  induction ls generalizing s2 with
  | nil => exact Or.inl h
  | cons src rest ih =>
    rw [List.foldl_cons] at h
    rcases ih (transmitOne nsend tr s2 src) h with h1 | h1
    · rw [transmitOne_rx, List.mem_append] at h1
      rcases h1 with h1 | h1
      · exact Or.inl h1
      · by_cases hf : s2.tflag tr src = true
        · rw [if_pos hf, List.mem_replicate] at h1
          obtain ⟨hcnt, hm2⟩ := h1
          refine Or.inr ⟨src, ?_, by rw [hm2]⟩
          by_contra hv
          exact hcnt (List.count_eq_zero.mpr hv)
        · rw [if_neg hf] at h1
          exact absurd h1 (List.not_mem_nil m)
    · exact Or.inr h1

/-- Any message found in a buffer after the whole transmission phase
(lines 348-359) either was there before or is addressed to a member of
`neighbors_send[its source][some transmitter]`. -/
theorem transmitPhase_rx_source (n : Nat) (nsend : Nat → Nat → List Nat)
    (st : SysState) (v : Nat) (m : Message)
    (h : m ∈ (transmitPhase n nsend st).rx v) :
    m ∈ st.rx v ∨ ∃ tr src, v ∈ nsend src tr ∧ m.source = src := by
  unfold transmitPhase at h
  have hgen : ∀ (lt : List Nat) (s : SysState),
      m ∈ (lt.foldl (fun s2 tr => (List.range n).foldl (transmitOne nsend tr) s2) s).rx v →
        m ∈ s.rx v ∨ ∃ tr src, v ∈ nsend src tr ∧ m.source = src := by
    intro lt
    induction lt with
    | nil =>
      intro s h2
      exact Or.inl h2
    | cons tr rest ih =>
      intro s h2
      rw [List.foldl_cons] at h2
      rcases ih _ h2 with h3 | h3
      · rcases transmitFold_rx_source nsend tr (List.range n) s v m h3 with h4 | h4
        · exact Or.inl h4
        · obtain ⟨src, ha, hb⟩ := h4
          exact Or.inr ⟨tr, src, ha, hb⟩
      · exact Or.inr h3
  exact hgen (List.range n) st h

/-- Any message in a receive buffer after one full round came out of the
transmission loop: it is addressed to a member of
`neighbors_send[its source][some transmitter]` (the buffers are emptied at
the head of the round, and ingest, yield and the convergence check never
write them). -/
theorem step_rx_source {n : Nat} {pref : Nat → Nat → ℚ}
    {nsend : Nat → Nat → List Nat} {st st' : SysState}
    (h : step n pref nsend st = some st') (m : Message) (v : Nat)
    (hm : m ∈ st'.rx v) :
    ∃ tr src, v ∈ nsend src tr ∧ m.source = src := by
  unfold step at h
  obtain ⟨st1, h1, h2⟩ := Option.bind_eq_some'.mp h
  obtain ⟨st2, h2a, h2b⟩ := Option.map_eq_some'.mp h2
  subst h2b
  have hcv : (convergePhase n (transmitPhase n nsend st2)).rx =
      (transmitPhase n nsend st2).rx := by
    obtain ⟨-, -, h3, -, -, -⟩ :=
      convergeFold_char n (List.range n) (transmitPhase n nsend st2) (List.nodup_range n)
    exact h3
  rw [show (convergePhase n (transmitPhase n nsend st2)).rx v =
    (transmitPhase n nsend st2).rx v from by rw [hcv]] at hm
  rcases transmitPhase_rx_source n nsend st2 v m hm with h4 | h4
  · exfalso
    unfold yieldPhase at h2a
    obtain ⟨-, hrx2, -⟩ := yieldFold_keeps h2a
    unfold ingestAll at h1
    obtain ⟨-, hrx1, -⟩ := ingestFold_keeps h1
    rw [show st2.rx v = (fun _ : Nat => ([] : List Message)) v from by
      rw [hrx2, hrx1]] at h4
    exact List.not_mem_nil m h4
  · exact h4

/-- C4.  Message deliveries climb the gradient: the forwarding list
`neighbors_send[source][node]` (lines 193-201) holds exactly the
neighbours of the node whose gradient for the source equals the node's
gradient plus one; every message of the pre-loop broadcast (lines 231-236)
goes from its source `s` (at gradient 0) to a direct neighbour of `s`,
which sits at gradient `gradient(s,s) + 1 = 1`; and every message present
in a receive buffer after a round was appended by the transmission loop
(lines 348-359) to a node of `neighbors_send[its source][the transmitter]`,
hence at gradient exactly the transmitter's plus one. -/
theorem message_delivery_raises_gradient (n : Nat) (conn : Nat → Nat → Bool)
    (pref : Nat → Nat → ℚ)
    (hirr : ∀ u, conn u u = false)
    (hbnd : ∀ u v, conn u v = true → u < n ∧ v < n) :
    (∀ s j nb, nb ∈ neighborsSend n conn s j ↔
      nb < n ∧ conn j nb = true ∧
        gradients n conn s nb = gradients n conn s j + 1) ∧
    (∀ m v, m ∈ initRx n (connList n conn) pref v →
      ∃ s, s < n ∧ m = initMsg n pref s ∧ v ∈ connList n conn s ∧
        gradients n conn s v = gradients n conn s s + 1) ∧
    (∀ st st' m v, step n pref (neighborsSend n conn) st = some st' →
      m ∈ st'.rx v →
      ∃ tr, v ∈ neighborsSend n conn m.source tr ∧
        gradients n conn m.source v = gradients n conn m.source tr + 1) := by
  refine ⟨fun s j nb => neighborsSend_mem n conn s j nb, ?_, ?_⟩
  · intro m v hm
    obtain ⟨s, hs, hmm, hv⟩ := initRx_source conn pref m v hm
    refine ⟨s, hs, hmm, hv, ?_⟩
    rw [grad_one_of_conn hirr hbnd hs (connList_mem.mp hv).2,
      (gradients_termRow hirr hbnd s hs).row_s]
  · intro st st' m v hstep hm
    obtain ⟨tr, src, hvn, hsrc⟩ := step_rx_source hstep m v hm
    rw [← hsrc] at hvn
    refine ⟨tr, hvn, ?_⟩
    exact ((neighborsSend_mem n conn m.source tr v).mp hvn).2.2

/-- Witness for C4 on the triangle `tCoords`: node 1 is in the forwarding
list of source 0 at relayer 0 (its gradient is `0 + 1`). -/
theorem message_delivery_raises_gradient_witness :
    1 ∈ neighborsSend 3 tConn 0 0 :=
  ((message_delivery_raises_gradient 3 tConn (fun _ _ => (0 : ℚ))
      (fun u => connFromCoords_irrefl tCoords u)
      (fun u v h => connFromCoords_bnd tCoords u v h)).1 0 0 1).mpr (by decide)

end TrigridRole
